import Mathlib

/-!
Verification of the mini-compiler backends: the bytecode emitter and its
stack VM (codegen_bytecode.rs), and the LLVM lowering engine
(codegen_llvm.rs).  Machine integers (Rust `i32` / LLVM `i32`) are modelled
as `Int` reduced into two's-complement range by `wrap32` at each arithmetic
instruction; signed division faults on a zero divisor and on the
`INT_MIN / -1` overflow, as Rust division panics and LLVM `sdiv` traps.
-/

/-- Two's-complement reduction of an integer into the `i32` range. -/
def wrap32 (n : Int) : Int := (n + 2 ^ 31) % 2 ^ 32 - 2 ^ 31

/-- The smallest `i32` value. -/
def i32Min : Int := -(2 ^ 31)

/-- Signed 32-bit division as both backends perform it: Rust `a / b`
panics on a zero divisor and on `i32::MIN / -1`; LLVM `sdiv` traps on the
same two inputs.  Otherwise it truncates toward zero. -/
def applyDiv (a b : Int) : Option Int :=
  if b = 0 then none
  else if a = i32Min ∧ b = -1 then none
  else some (Int.tdiv a b)

namespace BC

/-- Expressions as the bytecode emitter consumes them
(codegen_bytecode.rs `compile_expr` matches exactly these three forms;
the operator is a string, unknown operators panic). -/
inductive Expr where
  | number (n : Int)
  | identifier (name : String)
  | binary (left : Expr) (operator : String) (right : Expr)
deriving Repr, DecidableEq

/-- Statements as the bytecode emitter consumes them
(codegen_bytecode.rs `compile_stmt` matches exactly these three forms:
`VarDecl`, `Assignment`, and a single-branch `IfStmt`). -/
inductive Stmt where
  | varDecl (name : String) (varType : String) (value : Expr)
  | assignment (name : String) (value : Expr)
  | ifStmt (condition : Expr) (thenBranch : List Stmt)
deriving Repr

/-- A program is its list of statements (ast.rs `Program`). -/
structure Program where
  statements : List Stmt
deriving Repr

/-- The bytecode instruction set (codegen_bytecode.rs `Instr`). -/
inductive Instr where
  | pushInt (n : Int)
  | load (name : String)
  | store (name : String)
  | add | sub | mul | div
  | gt | lt | eq | neq
  | jump (addr : Nat)
  | jumpIfFalse (addr : Nat)
  | pop
  | halt
deriving Repr, DecidableEq

/-- `compile_expr`: append the code for an expression to the emitter's
buffer.  `none` models the `panic!("Unknown operator …")` arm. -/
def compile_expr (code : List Instr) : Expr → Option (List Instr)
  | .number n => some (code ++ [.pushInt n])
  | .identifier name => some (code ++ [.load name])
  | .binary l op r => do
      let c1 ← compile_expr code l
      let c2 ← compile_expr c1 r
      match op with
      | "+" => some (c2 ++ [.add])
      | "-" => some (c2 ++ [.sub])
      | "*" => some (c2 ++ [.mul])
      | "/" => some (c2 ++ [.div])
      | ">" => some (c2 ++ [.gt])
      | "<" => some (c2 ++ [.lt])
      | "==" => some (c2 ++ [.eq])
      | "!=" => some (c2 ++ [.neq])
      | _ => none

mutual

/-- `compile_stmt`: append the code for one statement.  The `ifStmt` case
emits a placeholder `JumpIfFalse 0`, compiles the then-branch, and patches
the placeholder to the index just after it (`e.patch`). -/
def compile_stmt (code : List Instr) : Stmt → Option (List Instr)
  | .varDecl name _ value => do
      let c ← compile_expr code value
      some (c ++ [.store name])
  | .assignment name value => do
      let c ← compile_expr code value
      some (c ++ [.store name])
  | .ifStmt condition thenBranch => do
      let c1 ← compile_expr code condition
      let jmpIfFalsePos := c1.length
      let c2 := c1 ++ [Instr.jumpIfFalse 0]
      let c3 ← compile_stmts c2 thenBranch
      some (c3.set jmpIfFalsePos (Instr.jumpIfFalse c3.length))

/-- The statement loops of `compile_program` and of the `ifStmt` arm. -/
def compile_stmts (code : List Instr) : List Stmt → Option (List Instr)
  | [] => some code
  | s :: rest => do
      let c ← compile_stmt code s
      compile_stmts c rest

end

/-- `compile_program`: compile every statement, then emit `Halt`. -/
def compile_program (program : Program) : Option (List Instr) := do
  let c ← compile_stmts [] program.statements
  some (c ++ [.halt])

/-- The VM's variable store: `HashMap<String, i32>` modelled as an
association list whose `insert` replaces any previous binding. -/
def insertVar (name : String) (v : Int) (vars : List (String × Int)) :
    List (String × Int) :=
  (name, v) :: vars.filter (fun p => p.1 ≠ name)

/-- `HashMap::get`. -/
def lookupVar : List (String × Int) → String → Option Int
  | [], _ => none
  | (k, v) :: rest, name => if k = name then some v else lookupVar rest name

/-- The VM state (codegen_bytecode.rs `VM`): instruction pointer, operand
stack (top at the head), code, and the flat variable store. -/
structure VMState where
  ip : Nat
  stack : List Int
  code : List Instr
  vars : List (String × Int)
deriving Repr, DecidableEq

/-- Runtime faults: the `expect("stack underflow …")` panics and the
arithmetic panic of integer division. -/
inductive Fault where
  | stackUnderflow
  | arithFault
deriving Repr, DecidableEq

/-- Result of one iteration of the `VM::run` loop: continue, stop
(`Halt`, or `ip` past the end), or abort with a fault.  A fault carries
the variable store at the moment of the panic. -/
inductive StepRes where
  | cont (s : VMState)
  | halted (s : VMState)
  | fault (f : Fault) (vars : List (String × Int))
deriving Repr, DecidableEq

/-- One iteration of the fetch–decode–execute loop of `VM::run`. -/
def step (s : VMState) : StepRes :=
  match s.code.get? s.ip with
  | none => .halted s
  | some i =>
    match i with
    | .pushInt n => .cont { s with ip := s.ip + 1, stack := n :: s.stack }
    | .load name =>
        .cont { s with ip := s.ip + 1,
                       stack := (lookupVar s.vars name).getD 0 :: s.stack }
    | .store name =>
        match s.stack with
        | [] => .fault .stackUnderflow s.vars
        | v :: rest =>
            .cont { s with ip := s.ip + 1, stack := rest,
                           vars := insertVar name v s.vars }
    | .add =>
        match s.stack with
        | b :: a :: rest =>
            .cont { s with ip := s.ip + 1, stack := wrap32 (a + b) :: rest }
        | _ => .fault .stackUnderflow s.vars
    | .sub =>
        match s.stack with
        | b :: a :: rest =>
            .cont { s with ip := s.ip + 1, stack := wrap32 (a - b) :: rest }
        | _ => .fault .stackUnderflow s.vars
    | .mul =>
        match s.stack with
        | b :: a :: rest =>
            .cont { s with ip := s.ip + 1, stack := wrap32 (a * b) :: rest }
        | _ => .fault .stackUnderflow s.vars
    | .div =>
        match s.stack with
        | b :: a :: rest =>
            match applyDiv a b with
            | some q => .cont { s with ip := s.ip + 1, stack := q :: rest }
            | none => .fault .arithFault s.vars
        | _ => .fault .stackUnderflow s.vars
    | .gt =>
        match s.stack with
        | b :: a :: rest =>
            .cont { s with ip := s.ip + 1,
                           stack := (if a > b then (1 : Int) else 0) :: rest }
        | _ => .fault .stackUnderflow s.vars
    | .lt =>
        match s.stack with
        | b :: a :: rest =>
            .cont { s with ip := s.ip + 1,
                           stack := (if a < b then (1 : Int) else 0) :: rest }
        | _ => .fault .stackUnderflow s.vars
    | .eq =>
        match s.stack with
        | b :: a :: rest =>
            .cont { s with ip := s.ip + 1,
                           stack := (if a = b then (1 : Int) else 0) :: rest }
        | _ => .fault .stackUnderflow s.vars
    | .neq =>
        match s.stack with
        | b :: a :: rest =>
            .cont { s with ip := s.ip + 1,
                           stack := (if a ≠ b then (1 : Int) else 0) :: rest }
        | _ => .fault .stackUnderflow s.vars
    | .jump addr => .cont { s with ip := addr }
    | .jumpIfFalse addr =>
        match s.stack with
        | [] => .fault .stackUnderflow s.vars
        | v :: rest =>
            if v = 0 then .cont { s with ip := addr, stack := rest }
            else .cont { s with ip := s.ip + 1, stack := rest }
    | .pop => .cont { s with ip := s.ip + 1, stack := s.stack.tail }
    | .halt => .halted s

/-- Outcome of `VM::run` under a fuel bound. -/
inductive RunRes where
  | halted (s : VMState)
  | fault (f : Fault) (vars : List (String × Int))
  | outOfFuel
deriving Repr, DecidableEq

/-- The `VM::run` loop, bounded by fuel. -/
def run : Nat → VMState → RunRes
  | 0, _ => .outOfFuel
  | fuel + 1, s =>
      match step s with
      | .cont s' => run fuel s'
      | .halted s' => .halted s'
      | .fault f vars => .fault f vars

/-- Iterate `step` exactly `n` times unless it stops or faults first. -/
def nsteps : Nat → VMState → StepRes
  | 0, s => .cont s
  | n + 1, s =>
      match step s with
      | .cont s' => nsteps n s'
      | r => r

/-- Fresh VM on a code sequence (`VM::new`). -/
def initVM (code : List Instr) : VMState :=
  { ip := 0, stack := [], code := code, vars := [] }

end BC

namespace LL

/-- Expressions of the full AST (ast.rs `Expr`), as the LLVM lowering
consumes them. -/
inductive Expr where
  | number (n : Int)
  | identifier (name : String)
  | binary (left : Expr) (operator : String) (right : Expr)
  | call (name : String) (args : List Expr)
deriving Repr

/-- Statements of the full AST (ast.rs `Stmt`). -/
inductive Stmt where
  | varDecl (name : String) (varType : String) (value : Expr)
  | assignment (name : String) (value : Expr)
  | ifStmt (condition : Expr) (thenBranch : List Stmt)
      (elseBranch : Option (List Stmt))
  | whileStmt (condition : Expr) (body : List Stmt)
  | function (name : String) (params : List (String × String))
      (retType : String) (body : List Stmt)
  | returnStmt (value : Option Expr)
  | exprStmt (e : Expr)
deriving Repr

/-- A program is its list of statements (ast.rs `Program`). -/
structure Program where
  statements : List Stmt
deriving Repr

/-- LLVM integer comparison predicates used by the lowering. -/
inductive Pred where
  | peq | pne | psgt | pslt
deriving Repr, DecidableEq

/-- An LLVM value: an `i32` constant, the result register of an emitted
instruction, or the i-th incoming parameter of the current function. -/
inductive Val where
  | constInt (n : Int)
  | reg (r : Nat)
  | param (i : Nat)
deriving Repr, DecidableEq

/-- Lowered instructions.  Value-producing instructions carry their fresh
result register id; `storeV`, `br`, `condbr`, `retV` produce no value. -/
inductive LInstr where
  | alloca (r : Nat) (name : String)
  | storeV (ptr : Val) (v : Val)
  | loadV (r : Nat) (ptr : Val) (name : String)
  | addV (r : Nat) (a b : Val)
  | subV (r : Nat) (a b : Val)
  | mulV (r : Nat) (a b : Val)
  | sdiv (r : Nat) (a b : Val)
  | icmp (r : Nat) (p : Pred) (a b : Val)
  | zext (r : Nat) (v : Val)
  | callV (r : Nat) (fname : String) (args : List Val)
  | br (target : Nat)
  | condbr (c : Val) (thenTarget elseTarget : Nat)
  | retV (v : Val)
deriving Repr

/-- Does this instruction terminate a basic block? -/
def isTerm : LInstr → Bool
  | .br _ => true
  | .condbr _ _ _ => true
  | .retV _ => true
  | _ => false

/-- A basic block: its LLVM name and its instruction list in emission
order. -/
structure Block where
  name : String
  instrs : List LInstr
deriving Repr

/-- A module function: its name, parameter count, and the global ids of
its basic blocks in append order. -/
structure Fn where
  name : String
  nparams : Nat
  blockIds : List Nat
deriving Repr

/-- State of `LLVMCodegen`: the arena of all basic blocks (a block's id is
its index), the module's functions, the current function (`self.function`),
the builder's insertion block (`cur`), the scope stack (innermost scope at
the head, each mapping a name to the register of its alloca), and the next
fresh register id. -/
structure CG where
  blocks : List Block
  funs : List Fn
  curFun : Option Nat
  cur : Nat
  varsStack : List (List (String × Nat))
  nreg : Nat
deriving Repr

/-- Compile-time fatal errors: the `panic!` calls of codegen_llvm.rs, plus
`internal` for the `expect` calls on builder/function invariants. -/
inductive LErr where
  | undefinedVariable (name : String)
  | unknownOp (op : String)
  | undefinedFunction (name : String)
  | internal
deriving Repr, DecidableEq

/-- Append an instruction at the end of block `idx`. -/
def appendInstr (blocks : List Block) (idx : Nat) (i : LInstr) : List Block :=
  match blocks.get? idx with
  | some b => blocks.set idx { b with instrs := b.instrs ++ [i] }
  | none => blocks

/-- Emit an instruction into the builder's current block. -/
def emit (cg : CG) (i : LInstr) : CG :=
  { cg with blocks := appendInstr cg.blocks cg.cur i }

/-- `context.append_basic_block(parent, name)`: add a fresh empty block to
the arena and register it with function `fnIdx`; returns its id. -/
def appendBlock (cg : CG) (fnIdx : Nat) (name : String) : CG × Nat :=
  let newId := cg.blocks.length
  let funs :=
    match cg.funs.get? fnIdx with
    | some f => cg.funs.set fnIdx { f with blockIds := f.blockIds ++ [newId] }
    | none => cg.funs
  ({ cg with blocks := cg.blocks ++ [{ name := name, instrs := [] }],
             funs := funs }, newId)

/-- `module.add_function`: append a function with no blocks yet. -/
def addFunction (cg : CG) (name : String) (nparams : Nat) : CG × Nat :=
  ({ cg with funs := cg.funs ++ [{ name := name, nparams := nparams,
                                   blockIds := [] }] }, cg.funs.length)

/-- `builder.position_at_end(bb)`. -/
def position (cg : CG) (bb : Nat) : CG := { cg with cur := bb }

/-- `push_scope`. -/
def pushScope (cg : CG) : CG := { cg with varsStack := [] :: cg.varsStack }

/-- `pop_scope`. -/
def popScope (cg : CG) : CG := { cg with varsStack := cg.varsStack.tail }

/-- Insert a binding into the innermost scope (`current_vars().insert`),
creating a scope when the stack is empty, as `current_vars` does. -/
def insertCurrentVar (cg : CG) (name : String) (ptr : Nat) : CG :=
  match cg.varsStack with
  | [] => { cg with varsStack := [[(name, ptr)]] }
  | scope :: rest =>
      { cg with varsStack :=
          ((name, ptr) :: scope.filter (fun p => p.1 ≠ name)) :: rest }

/-- Look a name up in one scope. -/
def lookupScope : List (String × Nat) → String → Option Nat
  | [], _ => none
  | (k, v) :: rest, name => if k = name then some v else lookupScope rest name

/-- Walk the scope stack from innermost to outermost
(`vars_stack.iter().rev()`). -/
def lookupVarsStack : List (List (String × Nat)) → String → Option Nat
  | [], _ => none
  | scope :: rest, name =>
      match lookupScope scope name with
      | some v => some v
      | none => lookupVarsStack rest name

/-- `create_entry_alloca`: append an `alloca` at the end of the first
basic block of the current function (the builder is repositioned there and
then restored), returning the alloca's register. -/
def createEntryAlloca (cg : CG) (name : String) : Except LErr (CG × Nat) := do
  match cg.curFun with
  | none => throw .internal
  | some fnIdx =>
      match cg.funs.get? fnIdx with
      | none => throw .internal
      | some f =>
          match f.blockIds.head? with
          | none => throw .internal
          | some entry =>
              let r := cg.nreg
              pure ({ cg with
                        blocks := appendInstr cg.blocks entry (.alloca r name),
                        nreg := r + 1 }, r)

/-- `module.get_function(name)`: is a function of this name declared? -/
def findFunction (cg : CG) (name : String) : Option Nat :=
  (cg.funs.findIdx? (fun f => f.name = name))

/-- `build_compare`: an `icmp` followed by a `zext` back to `i32`, so a
comparison yields the integer 1 or 0. -/
def buildCompare (cg : CG) (a b : Val) (p : Pred) : CG × Val :=
  let r1 := cg.nreg
  let cg1 := { emit cg (.icmp r1 p a b) with nreg := r1 + 1 }
  let r2 := cg1.nreg
  let cg2 := { emit cg1 (.zext r2 (.reg r1)) with nreg := r2 + 1 }
  (cg2, .reg r2)

mutual

/-- `compile_expr` of codegen_llvm.rs: returns the updated state and the
value holding the expression's result. -/
def compile_expr (cg : CG) : Expr → Except LErr (CG × Val)
  | .number n => pure (cg, .constInt n)
  | .identifier name =>
      match lookupVarsStack cg.varsStack name with
      | some ptr =>
          let r := cg.nreg
          pure ({ emit cg (.loadV r (.reg ptr) name) with nreg := r + 1 },
                .reg r)
      | none => throw (.undefinedVariable name)
  | .binary l op r => do
      let (cg1, a) ← compile_expr cg l
      let (cg2, b) ← compile_expr cg1 r
      match op with
      | "+" =>
          let rr := cg2.nreg
          pure ({ emit cg2 (.addV rr a b) with nreg := rr + 1 }, .reg rr)
      | "-" =>
          let rr := cg2.nreg
          pure ({ emit cg2 (.subV rr a b) with nreg := rr + 1 }, .reg rr)
      | "*" =>
          let rr := cg2.nreg
          pure ({ emit cg2 (.mulV rr a b) with nreg := rr + 1 }, .reg rr)
      | "/" =>
          let rr := cg2.nreg
          pure ({ emit cg2 (.sdiv rr a b) with nreg := rr + 1 }, .reg rr)
      | ">" => pure (buildCompare cg2 a b .psgt)
      | "<" => pure (buildCompare cg2 a b .pslt)
      | "==" => pure (buildCompare cg2 a b .peq)
      | "!=" => pure (buildCompare cg2 a b .pne)
      | _ => throw (.unknownOp op)
  | .call name args => do
      let (cg1, vals) ← compile_exprs cg args
      match findFunction cg1 name with
      | some _ =>
          let r := cg1.nreg
          pure ({ emit cg1 (.callV r name vals) with nreg := r + 1 }, .reg r)
      | none => throw (.undefinedFunction name)

/-- The left-to-right argument loop of the `Call` arm. -/
def compile_exprs (cg : CG) : List Expr → Except LErr (CG × List Val)
  | [] => pure (cg, [])
  | e :: rest => do
      let (cg1, v) ← compile_expr cg e
      let (cg2, vs) ← compile_exprs cg1 rest
      pure (cg2, v :: vs)

end

/-- The parameter loop of the `Function` arm: for each parameter, an
entry alloca, a store of the incoming value, and a scope binding. -/
def setupParams (cg : CG) : Nat → List (String × String) → Except LErr CG
  | _, [] => pure cg
  | i, (pname, _) :: rest => do
      let (cg1, a) ← createEntryAlloca cg pname
      let cg2 := emit cg1 (.storeV (.reg a) (.param i))
      let cg3 := insertCurrentVar cg2 pname a
      setupParams cg3 (i + 1) rest

mutual

/-- `compile_stmt` of codegen_llvm.rs. -/
def compile_stmt (cg : CG) : Stmt → Except LErr CG
  | .varDecl name _ value => do
      let (cg1, val) ← compile_expr cg value
      let (cg2, ptr) ← createEntryAlloca cg1 name
      let cg3 := emit cg2 (.storeV (.reg ptr) val)
      pure (insertCurrentVar cg3 name ptr)
  | .assignment name value => do
      let (cg1, val) ← compile_expr cg value
      match lookupVarsStack cg1.varsStack name with
      | some ptr => pure (emit cg1 (.storeV (.reg ptr) val))
      | none => throw (.undefinedVariable name)
  | .ifStmt condition thenBranch elseBranch => do
      let (cg1, condVal) ← compile_expr cg condition
      match cg1.curFun with
      | none => throw .internal
      | some parent =>
          let (cg2, thenBb) := appendBlock cg1 parent "then"
          let (cg3, elseBb) := appendBlock cg2 parent "else"
          let (cg4, afterBb) := appendBlock cg3 parent "after_if"
          let r := cg4.nreg
          let cg5 := { emit cg4 (.icmp r .pne condVal (.constInt 0)) with
                         nreg := r + 1 }
          let condBool := Val.reg r
          let cg6 :=
            if elseBranch.isSome then
              emit cg5 (.condbr condBool thenBb elseBb)
            else
              emit cg5 (.condbr condBool thenBb afterBb)
          let cg7 := pushScope (position cg6 thenBb)
          let cg8 ← compile_stmts cg7 thenBranch
          let cg9 := emit (popScope cg8) (.br afterBb)
          let cg10 ←
            match elseBranch with
            | some elseStmts => do
                let c := pushScope (position cg9 elseBb)
                let c2 ← compile_stmts c elseStmts
                pure (emit (popScope c2) (.br afterBb))
            | none => pure cg9
          pure (position cg10 afterBb)
  | .whileStmt condition body => do
      match cg.curFun with
      | none => throw .internal
      | some parent =>
          let (cg1, condBb) := appendBlock cg parent "while_cond"
          let (cg2, bodyBb) := appendBlock cg1 parent "while_body"
          let (cg3, afterBb) := appendBlock cg2 parent "while_after"
          let cg4 := emit cg3 (.br condBb)
          let cg5 := position cg4 condBb
          let (cg6, condVal) ← compile_expr cg5 condition
          let r := cg6.nreg
          let cg7 := { emit cg6 (.icmp r .pne condVal (.constInt 0)) with
                         nreg := r + 1 }
          let cg8 := emit cg7 (.condbr (.reg r) bodyBb afterBb)
          let cg9 := pushScope (position cg8 bodyBb)
          let cg10 ← compile_stmts cg9 body
          let cg11 := emit (popScope cg10) (.br condBb)
          pure (position cg11 afterBb)
  | .function name params _ body => do
      let (cg1, fnId) := addFunction cg name params.length
      let (cg2, entry) := appendBlock cg1 fnId "entry"
      let prevFn := cg2.curFun
      let cg3 := position { cg2 with curFun := some fnId } entry
      let cg4 := pushScope cg3
      let cg5 ← setupParams cg4 0 params
      let cg6 ← compile_stmts cg5 body
      let cg7 := emit cg6 (.retV (.constInt 0))
      let cg8 := popScope cg7
      pure { cg8 with curFun := prevFn }
  | .returnStmt value => do
      match value with
      | some e => do
          let (cg1, v) ← compile_expr cg e
          pure (emit cg1 (.retV v))
      | none => pure (emit cg (.retV (.constInt 0)))
  | .exprStmt e => do
      let (cg1, _) ← compile_expr cg e
      pure cg1

/-- The statement loops of `compile_program` and the block bodies. -/
def compile_stmts (cg : CG) : List Stmt → Except LErr CG
  | [] => pure cg
  | s :: rest => do
      let cg1 ← compile_stmt cg s
      compile_stmts cg1 rest

end

/-- `compile_program` of codegen_llvm.rs: create `main`, position at its
entry block, lower every top-level statement, and return 0. -/
def compile_program (program : Program) : Except LErr CG := do
  let cg0 : CG := { blocks := [], funs := [], curFun := none, cur := 0,
                    varsStack := [], nreg := 0 }
  let (cg1, mainId) := addFunction cg0 "main" 0
  let (cg2, entry) := appendBlock cg1 mainId "entry"
  let cg3 := position { cg2 with curFun := some mainId } entry
  let cg4 := pushScope cg3
  let cg5 ← compile_stmts cg4 program.statements
  let cg6 := emit cg5 (.retV (.constInt 0))
  pure (popScope cg6)

/-- Straight-line statements: the forms whose lowering emits only
non-terminator instructions into the current block and creates no new
basic blocks. -/
def isSL : Stmt → Prop
  | .varDecl _ _ _ => True
  | .assignment _ _ => True
  | .exprStmt _ => True
  | _ => False

/-- All statements of a list are straight-line. -/
def allSL (ss : List Stmt) : Prop := ∀ s ∈ ss, isSL s

/-- The arena `bs'` extends `bs` block by block, appending only
non-terminator instructions. -/
def ExtendsNT (bs bs' : List Block) : Prop :=
  bs'.length = bs.length ∧
  ∀ (idx : Nat) (b : Block), bs[idx]? = some b →
    ∃ ext, bs'[idx]? = some (Block.mk b.name (b.instrs ++ ext)) ∧
      ∀ i ∈ ext, isTerm i = false

/-- The entry block (first basic block) of the current function, the
target of `create_entry_alloca`. -/
def entryOf (cg : CG) : Option Nat :=
  match cg.curFun with
  | none => none
  | some fi =>
      match cg.funs.get? fi with
      | none => none
      | some fn => fn.blockIds.head?

/-- The state facts preserved by every straight-line lowering step:
builder position, current function, function table, a block-arena
extension by non-terminators only, and blocks other than the insertion
block and the entry block are untouched. -/
def Preserves (cg cg' : CG) : Prop :=
  cg'.cur = cg.cur ∧ cg'.curFun = cg.curFun ∧ cg'.funs = cg.funs ∧
  cg.nreg ≤ cg'.nreg ∧ ExtendsNT cg.blocks cg'.blocks ∧
  ∀ idx, idx ≠ cg.cur → entryOf cg ≠ some idx →
    cg'.blocks[idx]? = cg.blocks[idx]?

/-- Preservation together with the scope-stack facts of straight-line
statements: the outer scopes are untouched and the stack stays nonempty. -/
def PreservesVS (cg cg' : CG) : Prop :=
  Preserves cg cg' ∧ cg'.varsStack.tail = cg.varsStack.tail ∧
    (cg.varsStack ≠ [] → cg'.varsStack ≠ [])

/-- The instruction list of block `idx` (empty if out of range). -/
def blockInstrs (cg : CG) (idx : Nat) : List LInstr :=
  ((cg.blocks[idx]?).map Block.instrs).getD []

/-- The name of block `idx` (empty if out of range). -/
def blockName (cg : CG) (idx : Nat) : String :=
  ((cg.blocks[idx]?).map Block.name).getD ""

/-- Semantics of an LLVM comparison predicate. -/
def predHolds (p : Pred) (a b : Int) : Bool :=
  match p with
  | .peq => a = b
  | .pne => a ≠ b
  | .psgt => a > b
  | .pslt => a < b

/-- The result register of a value-producing instruction. -/
def resultReg : LInstr → Option Nat
  | .alloca r _ => some r
  | .loadV r _ _ => some r
  | .addV r _ _ => some r
  | .subV r _ _ => some r
  | .mulV r _ _ => some r
  | .sdiv r _ _ => some r
  | .icmp r _ _ _ => some r
  | .zext r _ => some r
  | .callV r _ _ => some r
  | _ => none

/-- All instructions of the arena, in block order. -/
def defsOf (blocks : List Block) : List LInstr :=
  blocks.flatMap (fun b => b.instrs)

/-- The first instruction in the arena whose result register is `r`. -/
def findDef (blocks : List Block) (r : Nat) : Option LInstr :=
  (defsOf blocks).find? (fun i => resultReg i == some r)

/-- Denotation of a pure lowered value: evaluate the emitted arithmetic,
comparison and extension instructions it refers to.  `none` is the trap of
`sdiv` on a zero divisor or on `INT_MIN / -1`, or a value that is not pure
straight-line arithmetic (loads, calls, parameters, allocas). -/
def evalVal (blocks : List Block) : Nat → Val → Option Int
  | _, .constInt n => some n
  | 0, .reg _ => none
  | fuel + 1, .reg r => do
      match findDef blocks r with
      | some (.addV _ a b) => do
          let x ← evalVal blocks fuel a
          let y ← evalVal blocks fuel b
          some (wrap32 (x + y))
      | some (.subV _ a b) => do
          let x ← evalVal blocks fuel a
          let y ← evalVal blocks fuel b
          some (wrap32 (x - y))
      | some (.mulV _ a b) => do
          let x ← evalVal blocks fuel a
          let y ← evalVal blocks fuel b
          some (wrap32 (x * y))
      | some (.sdiv _ a b) => do
          let x ← evalVal blocks fuel a
          let y ← evalVal blocks fuel b
          applyDiv x y
      | some (.icmp _ p a b) => do
          let x ← evalVal blocks fuel a
          let y ← evalVal blocks fuel b
          some (if predHolds p x y then 1 else 0)
      | some (.zext _ v) => evalVal blocks fuel v
      | _ => none
  | _, .param _ => none

/-- Register discipline: every result register already defined in the
arena is below the fresh-register counter. -/
def RW (cg : CG) : Prop :=
  ∀ j ∈ defsOf cg.blocks, ∀ m, resultReg j = some m → m < cg.nreg

end LL

/-- The common semantics of the eight binary operators, keyed by the
operator string both backends match on.  Arithmetic wraps to `i32`;
division faults per `applyDiv`; comparisons yield 1 or 0. -/
def applyOp (op : String) (a b : Int) : Option Int :=
  match op with
  | "+" => some (wrap32 (a + b))
  | "-" => some (wrap32 (a - b))
  | "*" => some (wrap32 (a * b))
  | "/" => applyDiv a b
  | ">" => some (if a > b then (1 : Int) else 0)
  | "<" => some (if a < b then (1 : Int) else 0)
  | "==" => some (if a = b then (1 : Int) else 0)
  | "!=" => some (if a ≠ b then (1 : Int) else 0)
  | _ => none

namespace BC

/-- Reference evaluator for bytecode expressions against a variable
store: a `Load` of an unset name reads 0; `none` is an arithmetic fault
or an unknown operator. -/
def evalB (vars : List (String × Int)) : Expr → Option Int
  | .number n => some n
  | .identifier name => some ((lookupVar vars name).getD 0)
  | .binary l op r => do
      let a ← evalB vars l
      let b ← evalB vars r
      applyOp op a b

/-- The code fragment a lone expression compiles to. -/
def exprFrag (e : Expr) : Option (List Instr) := compile_expr [] e

mutual

/-- The code fragment one statement compiles to, given the absolute index
at which it will be placed (the patched jump target is absolute). -/
def stmtFrag (base : Nat) : Stmt → Option (List Instr)
  | .varDecl name _ value => (exprFrag value).map (· ++ [.store name])
  | .assignment name value => (exprFrag value).map (· ++ [.store name])
  | .ifStmt condition thenBranch => do
      let f1 ← exprFrag condition
      let tf ← stmtsFrag (base + f1.length + 1) thenBranch
      pure (f1 ++ Instr.jumpIfFalse (base + f1.length + 1 + tf.length) :: tf)

/-- The code fragment a statement list compiles to, starting at `base`. -/
def stmtsFrag (base : Nat) : List Stmt → Option (List Instr)
  | [] => pure []
  | s :: rest => do
      let f ← stmtFrag base s
      let fr ← stmtsFrag (base + f.length) rest
      pure (f ++ fr)

end

/-- The instruction the emitter selects for an operator string. -/
def opInstr : String → Option Instr
  | "+" => some .add
  | "-" => some .sub
  | "*" => some .mul
  | "/" => some .div
  | ">" => some .gt
  | "<" => some .lt
  | "==" => some .eq
  | "!=" => some .neq
  | _ => none

end BC

/-- Pure arithmetic expressions: integer literals under binary operators.
This is the fragment shared by the two backends' AST shapes, the subject
of the cross-backend agreement property. -/
inductive AExp where
  | num (n : Int)
  | bin (l : AExp) (op : String) (r : AExp)
deriving Repr, DecidableEq

/-- Only the eight supported operators occur. -/
def AExp.wf : AExp → Prop
  | .num _ => True
  | .bin l op r =>
      op ∈ ["+", "-", "*", "/", ">", "<", "==", "!="] ∧ l.wf ∧ r.wf

instance instDecWfAExp : (a : AExp) → Decidable a.wf
  | .num _ => .isTrue trivial
  | .bin l op r =>
      have : Decidable l.wf := instDecWfAExp l
      have : Decidable r.wf := instDecWfAExp r
      inferInstanceAs (Decidable (_ ∧ _ ∧ _))

/-- Read a pure arithmetic expression as a bytecode-AST expression. -/
def AExp.toBC : AExp → BC.Expr
  | .num n => .number n
  | .bin l op r => .binary l.toBC op r.toBC

/-- Read a pure arithmetic expression as a full-AST expression. -/
def AExp.toLL : AExp → LL.Expr
  | .num n => .number n
  | .bin l op r => .binary l.toLL op r.toLL

/-- The common value of a pure arithmetic expression (`none` = arithmetic
fault). -/
def AExp.evalA : AExp → Option Int
  | .num n => some n
  | .bin l op r => do
      let a ← l.evalA
      let b ← r.evalA
      applyOp op a b

/-- Fuel needed to evaluate the lowered form of a pure expression. -/
def AExp.cost : AExp → Nat
  | .num _ => 0
  | .bin l _ r => max l.cost r.cost + 2

/-- The source program `let x = 5; if x > 3 { x = x + 1; }` in the
bytecode emitter's AST. -/
def prog1 : BC.Program :=
  ⟨[.varDecl "x" "int" (.number 5),
    .ifStmt (.binary (.identifier "x") ">" (.number 3))
      [.assignment "x" (.binary (.identifier "x") "+" (.number 1))]]⟩

/-- The buffer `compile_stmt` produces for `if (0) { y = 1; }` from an
empty buffer: the patched jump targets index 4, just past the then-block. -/
def outIf0 : List BC.Instr :=
  [.pushInt 0, .jumpIfFalse 4, .pushInt 1, .store "y"]

/-- The program `let q = 10 / 0;` in the bytecode emitter's AST. -/
def progDivBC : BC.Program :=
  ⟨[.varDecl "q" "int" (.binary (.number 10) "/" (.number 0))]⟩

/-- The codegen state right after the `main` prologue of the LLVM
lowering: one empty `entry` block owned by `main`, one open scope. -/
def cgMain : LL.CG :=
  ⟨[⟨"entry", []⟩], [⟨"main", 0, [0]⟩], some 0, 0, [[]], 0⟩

/-- The program `if (1) { }` (no else branch) in the full AST. -/
def progIfLL : LL.Program := ⟨[.ifStmt (.number 1) [] none]⟩

/-- The codegen state `compile_stmt` produces for `if (1) { }` from the
`main` prologue state. -/
def cgIfOut : LL.CG :=
  ⟨[⟨"entry", [.icmp 0 .pne (.constInt 1) (.constInt 0),
      .condbr (.reg 0) 1 3]⟩,
    ⟨"then", [.br 3]⟩, ⟨"else", []⟩, ⟨"after_if", []⟩],
   [⟨"main", 0, [0, 1, 2, 3]⟩], some 0, 3, [[]], 1⟩

/-- The `main` function descriptor of the prologue state. -/
def fnMain : LL.Fn := ⟨"main", 0, [0]⟩

/-- The program `while (1) { if (1) { } }` in the full AST. -/
def progWhileNestedLL : LL.Program :=
  ⟨[.whileStmt (.number 1) [.ifStmt (.number 1) [] none]]⟩

/-- The codegen state `compile_stmt` produces for `while (1) { }` from
the `main` prologue state. -/
def cgWhileOut : LL.CG :=
  ⟨[⟨"entry", [.br 1]⟩,
    ⟨"while_cond", [.icmp 0 .pne (.constInt 1) (.constInt 0),
      .condbr (.reg 0) 2 3]⟩,
    ⟨"while_body", [.br 1]⟩, ⟨"while_after", []⟩],
   [⟨"main", 0, [0, 1, 2, 3]⟩], some 0, 3, [[]], 1⟩

/-- The program `let q = 10 / 0;` in the full AST. -/
def progDivLL : LL.Program :=
  ⟨[.varDecl "q" "int" (.binary (.number 10) "/" (.number 0))]⟩

namespace LL

theorem extendsNT_refl (bs : List Block) : ExtendsNT bs bs := by
  constructor
  · rfl
  · intro idx b hb
    refine ⟨[], ?_, ?_⟩
    · simpa using hb
    · intro i hi
      simp at hi

theorem extendsNT_trans {b1 b2 b3 : List Block}
    (h12 : ExtendsNT b1 b2) (h23 : ExtendsNT b2 b3) : ExtendsNT b1 b3 := by
  obtain ⟨hl12, he12⟩ := h12
  obtain ⟨hl23, he23⟩ := h23
  refine ⟨hl23.trans hl12, fun idx b hb => ?_⟩
  obtain ⟨e1, hg1, hn1⟩ := he12 idx b hb
  obtain ⟨e2, hg2, hn2⟩ := he23 idx _ hg1
  refine ⟨e1 ++ e2, by simpa [List.append_assoc] using hg2, ?_⟩
  intro i hi
  rcases List.mem_append.mp hi with h | h
  · exact hn1 i h
  · exact hn2 i h

theorem extendsNT_appendInstr {bs : List Block} (idx : Nat) {i : LInstr}
    (hi : isTerm i = false) : ExtendsNT bs (appendInstr bs idx i) := by
  unfold appendInstr
  cases hg : bs.get? idx with
  | none => exact extendsNT_refl bs
  | some b =>
      have hg' : bs[idx]? = some b := by simpa using hg
      refine ⟨by simp, fun j bj hbj => ?_⟩
      by_cases hij : j = idx
      · subst hij
        have hbb : bj = b := by rw [hbj] at hg'; exact Option.some.inj hg'
        subst hbb
        have hlt : j < bs.length := by
          have := List.getElem?_eq_some_iff.mp hbj
          exact this.1
        refine ⟨[i], ?_, by simpa using hi⟩
        exact List.getElem?_set_self hlt
      · refine ⟨[], ?_, by simp⟩
        have : idx ≠ j := fun h => hij h.symm
        rw [List.getElem?_set_ne this]
        simpa using hbj

/-- Blocks other than `idx` are untouched by `appendInstr`. -/
theorem appendInstr_untouched (bs : List Block) (idx j : Nat)
    (i : LInstr) (hj : j ≠ idx) : (appendInstr bs idx i)[j]? = bs[j]? := by
  unfold appendInstr
  cases bs.get? idx with
  | none => rfl
  | some b => exact List.getElem?_set_ne (fun h => hj h.symm)

theorem entryOf_eq_of {c1 c2 : CG} (hf : c2.curFun = c1.curFun)
    (hfs : c2.funs = c1.funs) : entryOf c2 = entryOf c1 := by
  unfold entryOf
  rw [hf, hfs]

theorem preserves_refl (cg : CG) : Preserves cg cg :=
  ⟨rfl, rfl, rfl, Nat.le_refl _, extendsNT_refl _, fun _ _ _ => rfl⟩

theorem preserves_trans {c1 c2 c3 : CG} (h12 : Preserves c1 c2)
    (h23 : Preserves c2 c3) : Preserves c1 c3 := by
  obtain ⟨ha1, ha2, ha3, ha4, ha5, ha6⟩ := h12
  obtain ⟨hb1, hb2, hb3, hb4, hb5, hb6⟩ := h23
  refine ⟨hb1.trans ha1, hb2.trans ha2, hb3.trans ha3, ha4.trans hb4,
    extendsNT_trans ha5 hb5, fun idx hc he => ?_⟩
  have he2 : entryOf c2 = entryOf c1 := entryOf_eq_of ha2 ha3
  have := hb6 idx (ha1 ▸ hc) (he2 ▸ he)
  rw [this]
  exact ha6 idx hc he

theorem preserves_emit (cg : CG) (i : LInstr) (hi : isTerm i = false) :
    Preserves cg (emit cg i) :=
  ⟨rfl, rfl, rfl, Nat.le_refl _, extendsNT_appendInstr _ hi,
    fun idx hc _ => appendInstr_untouched _ _ _ _ hc⟩

theorem preserves_emit_reg (cg : CG) (i : LInstr) (hi : isTerm i = false)
    (n : Nat) :
    Preserves cg { emit cg i with nreg := cg.nreg + n } :=
  ⟨rfl, rfl, rfl, Nat.le_add_right _ _, extendsNT_appendInstr _ hi,
    fun idx hc _ => appendInstr_untouched _ _ _ _ hc⟩

theorem createEntryAlloca_preserves {cg cg' : CG} {name : String} {r : Nat}
    (h : createEntryAlloca cg name = .ok (cg', r)) :
    Preserves cg cg' ∧ cg'.varsStack = cg.varsStack := by
  unfold createEntryAlloca at h
  split at h
  · exact Except.noConfusion h
  · split at h
    · exact Except.noConfusion h
    · split at h
      · exact Except.noConfusion h
      · simp only [pure, Except.pure, Except.ok.injEq, Prod.mk.injEq] at h
        obtain ⟨rfl, rfl⟩ := h
        refine ⟨⟨rfl, rfl, rfl, Nat.le_succ _,
          extendsNT_appendInstr _ rfl, fun idx _ he => ?_⟩, rfl⟩
        refine appendInstr_untouched _ _ _ _ (fun hj => he ?_)
        unfold entryOf
        simp only [*]

theorem buildCompare_preserves (cg : CG) (a b : Val) (p : Pred) :
    Preserves cg (buildCompare cg a b p).1 := by
  unfold buildCompare
  exact preserves_trans (preserves_emit_reg cg _ (by rfl) 1) (preserves_emit_reg _ _ (by rfl) 1)

theorem ll_expr_preserves_aux : ∀ k : Nat,
    (∀ e : Expr, sizeOf e ≤ k → ∀ cg cg' v,
      compile_expr cg e = .ok (cg', v) →
      Preserves cg cg' ∧ cg'.varsStack = cg.varsStack) ∧
    (∀ es : List Expr, sizeOf es ≤ k → ∀ cg cg' vs,
      compile_exprs cg es = .ok (cg', vs) →
      Preserves cg cg' ∧ cg'.varsStack = cg.varsStack) := by
  intro k
  induction k with
  | zero =>
      constructor
      · intro e he; cases e <;> simp at he <;> omega
      · intro es he; cases es <;> simp at he <;> omega
  | succ k ih =>
      obtain ⟨ihe, ihes⟩ := ih
      constructor
      · intro e he cg cg' v h
        cases e with
        | number n =>
            simp only [compile_expr, pure, Except.pure, Except.ok.injEq,
              Prod.mk.injEq] at h
            obtain ⟨rfl, rfl⟩ := h
            exact ⟨preserves_refl _, rfl⟩
        | identifier name =>
            simp only [compile_expr] at h
            cases hl : lookupVarsStack cg.varsStack name with
            | none => rw [hl] at h; exact Except.noConfusion h
            | some ptr =>
                rw [hl] at h
                simp only [pure, Except.pure, Except.ok.injEq,
                  Prod.mk.injEq] at h
                obtain ⟨rfl, rfl⟩ := h
                exact ⟨preserves_emit_reg cg _ (by rfl) 1, rfl⟩
        | binary l op r =>
            have hle : sizeOf l ≤ k := by simp at he; omega
            have hre : sizeOf r ≤ k := by simp at he; omega
            simp only [compile_expr] at h
            cases hcl : compile_expr cg l with
            | error e1 => rw [hcl] at h; exact Except.noConfusion h
            | ok p1 =>
                obtain ⟨cg1, a⟩ := p1
                rw [hcl] at h
                simp only [bind, Except.bind] at h
                have H1 := ihe l hle cg cg1 a hcl
                cases hcr : compile_expr cg1 r with
                | error e2 =>
                    rw [hcr] at h; exact Except.noConfusion h
                | ok p2 =>
                    obtain ⟨cg2, b⟩ := p2
                    rw [hcr] at h
                    simp only [bind, Except.bind] at h
                    have H2 := ihe r hre cg1 cg2 b hcr
                    have H12 : Preserves cg cg2 ∧
                        cg2.varsStack = cg.varsStack :=
                      ⟨preserves_trans H1.1 H2.1, H2.2.trans H1.2⟩
                    split at h <;>
                      first
                        | exact Except.noConfusion h
                        | (simp only [pure, Except.pure, Except.ok.injEq,
                            Prod.mk.injEq] at h
                           obtain ⟨rfl, rfl⟩ := h
                           first
                             | exact ⟨preserves_trans H12.1
                                 (preserves_emit_reg cg2 _ (by rfl) 1), H12.2⟩
                             | exact ⟨preserves_trans H12.1
                                 (buildCompare_preserves cg2 _ _ _),
                                 H12.2⟩)
        | call name args =>
            have hae : sizeOf args ≤ k := by simp at he; omega
            simp only [compile_expr] at h
            cases hca : compile_exprs cg args with
            | error e1 => rw [hca] at h; exact Except.noConfusion h
            | ok p1 =>
                obtain ⟨cg1, vals⟩ := p1
                rw [hca] at h
                simp only [bind, Except.bind] at h
                have H1 := ihes args hae cg cg1 vals hca
                cases hff : findFunction cg1 name with
                | none => rw [hff] at h; exact Except.noConfusion h
                | some fidx =>
                    rw [hff] at h
                    simp only [pure, Except.pure, Except.ok.injEq,
                      Prod.mk.injEq] at h
                    obtain ⟨rfl, rfl⟩ := h
                    exact ⟨preserves_trans H1.1 (preserves_emit_reg cg1 _ (by rfl) 1), H1.2⟩
      · intro es he cg cg' vs h
        cases es with
        | nil =>
            simp only [compile_exprs, pure, Except.pure, Except.ok.injEq,
              Prod.mk.injEq] at h
            obtain ⟨rfl, rfl⟩ := h
            exact ⟨preserves_refl _, rfl⟩
        | cons e rest =>
            have he1 : sizeOf e ≤ k := by simp at he; omega
            have he2 : sizeOf rest ≤ k := by simp at he; omega
            simp only [compile_exprs] at h
            cases hce : compile_expr cg e with
            | error e1 => rw [hce] at h; exact Except.noConfusion h
            | ok p1 =>
                obtain ⟨cg1, v1⟩ := p1
                rw [hce] at h
                simp only [bind, Except.bind] at h
                have H1 := ihe e he1 cg cg1 v1 hce
                cases hcr : compile_exprs cg1 rest with
                | error e2 => rw [hcr] at h; exact Except.noConfusion h
                | ok p2 =>
                    obtain ⟨cg2, vs2⟩ := p2
                    rw [hcr] at h
                    simp only [bind, Except.bind] at h
                    have H2 := ihes rest he2 cg1 cg2 vs2 hcr
                    simp only [pure, Except.pure, Except.ok.injEq,
                      Prod.mk.injEq] at h
                    obtain ⟨rfl, rfl⟩ := h
                    exact ⟨preserves_trans H1.1 H2.1, H2.2.trans H1.2⟩

theorem ll_expr_preserves {e : Expr} {cg cg' : CG} {v : Val}
    (h : compile_expr cg e = .ok (cg', v)) :
    Preserves cg cg' ∧ cg'.varsStack = cg.varsStack :=
  (ll_expr_preserves_aux (sizeOf e)).1 e (Nat.le_refl _) cg cg' v h

theorem preservesVS_refl (cg : CG) : PreservesVS cg cg :=
  ⟨preserves_refl _, rfl, fun h => h⟩

theorem preservesVS_trans {c1 c2 c3 : CG} (h12 : PreservesVS c1 c2)
    (h23 : PreservesVS c2 c3) : PreservesVS c1 c3 :=
  ⟨preserves_trans h12.1 h23.1, h23.2.1.trans h12.2.1, fun h => h23.2.2 (h12.2.2 h)⟩

theorem insertCurrentVar_preservesVS (cg : CG) (name : String) (ptr : Nat) :
    PreservesVS cg (insertCurrentVar cg name ptr) := by
  unfold insertCurrentVar
  cases hvs : cg.varsStack with
  | nil =>
      refine ⟨preserves_refl _, ?_, ?_⟩ <;> simp [hvs]
  | cons hd tl =>
      refine ⟨preserves_refl _, ?_, ?_⟩ <;> simp [hvs]

theorem sl_stmt_preserves {s : Stmt} (hsl : isSL s) {cg cg' : CG}
    (h : compile_stmt cg s = .ok cg') : PreservesVS cg cg' := by
  cases s with
  | varDecl name varType value =>
      simp only [compile_stmt] at h
      cases hce : compile_expr cg value with
      | error e1 => rw [hce] at h; exact Except.noConfusion h
      | ok p1 =>
          obtain ⟨cg1, val⟩ := p1
          rw [hce] at h
          simp only [bind, Except.bind] at h
          have P1 := ll_expr_preserves hce
          cases hca : createEntryAlloca cg1 name with
          | error e2 => rw [hca] at h; exact Except.noConfusion h
          | ok p2 =>
              obtain ⟨cg2, ptr⟩ := p2
              rw [hca] at h
              simp only [bind, Except.bind, pure, Except.pure,
                Except.ok.injEq] at h
              subst h
              have P2 := createEntryAlloca_preserves hca
              have P3 := preserves_emit cg2 (LInstr.storeV (.reg ptr)
                val) rfl
              have P4 := insertCurrentVar_preservesVS
                (emit cg2 (.storeV (.reg ptr) val)) name ptr
              have hvs2 : cg2.varsStack = cg.varsStack := P2.2.trans P1.2
              refine @preservesVS_trans _ cg2 _ ?_ ?_
              · exact ⟨preserves_trans P1.1 P2.1, by rw [hvs2], fun hne => by
                  rw [hvs2]; exact hne⟩
              · exact @preservesVS_trans _ (emit cg2 (.storeV (.reg ptr)
                  val)) _ ⟨P3, rfl, fun hne => hne⟩ P4
  | assignment name value =>
      simp only [compile_stmt] at h
      cases hce : compile_expr cg value with
      | error e1 => rw [hce] at h; exact Except.noConfusion h
      | ok p1 =>
          obtain ⟨cg1, val⟩ := p1
          rw [hce] at h
          simp only [bind, Except.bind] at h
          have P1 := ll_expr_preserves hce
          cases hl : lookupVarsStack cg1.varsStack name with
          | none => rw [hl] at h; exact Except.noConfusion h
          | some ptr =>
              rw [hl] at h
              simp only [pure, Except.pure, Except.ok.injEq] at h
              subst h
              have P3 := preserves_emit cg1 (LInstr.storeV (.reg ptr)
                val) rfl
              refine ⟨preserves_trans P1.1 P3, ?_, fun hne => ?_⟩
              · show cg1.varsStack.tail = cg.varsStack.tail
                rw [P1.2]
              · show cg1.varsStack ≠ []
                rw [P1.2]; exact hne
  | exprStmt e =>
      simp only [compile_stmt] at h
      cases hce : compile_expr cg e with
      | error e1 => rw [hce] at h; exact Except.noConfusion h
      | ok p1 =>
          obtain ⟨cg1, val⟩ := p1
          rw [hce] at h
          simp only [bind, Except.bind, pure, Except.pure,
            Except.ok.injEq] at h
          subst h
          have P1 := ll_expr_preserves hce
          exact ⟨P1.1, by rw [P1.2], fun hne => by rw [P1.2]; exact hne⟩
  | ifStmt c t e => exact hsl.elim
  | whileStmt c b => exact hsl.elim
  | function n p r b => exact hsl.elim
  | returnStmt v => exact hsl.elim

theorem sl_stmts_preserves {ss : List Stmt} (hsl : allSL ss) {cg cg' : CG}
    (h : compile_stmts cg ss = .ok cg') : PreservesVS cg cg' := by
  induction ss generalizing cg with
  | nil =>
      simp only [compile_stmts, pure, Except.pure, Except.ok.injEq] at h
      subst h
      exact preservesVS_refl _
  | cons s rest ih =>
      simp only [compile_stmts] at h
      cases hcs : compile_stmt cg s with
      | error e1 => rw [hcs] at h; exact Except.noConfusion h
      | ok cg1 =>
          rw [hcs] at h
          simp only [bind, Except.bind] at h
          have H1 := sl_stmt_preserves (hsl s (by simp)) hcs
          have H2 := ih (fun x hx => hsl x (by simp [hx])) h
          exact preservesVS_trans H1 H2

theorem except_bind_ok {E A B : Type} {x : Except E A} {f : A → Except E B}
    {b : B} (h : (x >>= f) = .ok b) : ∃ a, x = .ok a ∧ f a = .ok b := by
  cases x with
  | error e => simp [bind, Except.bind] at h
  | ok a => exact ⟨a, rfl, by simpa [bind, Except.bind] using h⟩

theorem appendInstr_get_self {bs : List Block} {idx : Nat} {b : Block}
    (i : LInstr) (hb : bs[idx]? = some b) :
    (appendInstr bs idx i)[idx]? =
      some (Block.mk b.name (b.instrs ++ [i])) := by
  have hlt : idx < bs.length := (List.getElem?_eq_some_iff.mp hb).1
  unfold appendInstr
  rw [show bs.get? idx = some b from by
    simpa [List.get?_eq_getElem?] using hb]
  exact List.getElem?_set_self hlt

theorem appendInstr_length (bs : List Block) (idx : Nat) (i : LInstr) :
    (appendInstr bs idx i).length = bs.length := by
  unfold appendInstr
  cases bs.get? idx <;> simp

theorem head_append_ne_nil {α : Type} (l r : List α) (h : l ≠ []) :
    (l ++ r).head? = l.head? := by
  cases l with
  | nil => exact absurd rfl h
  | cons a t => rfl

theorem funs_get_appendBlock_self (cg : CG) (f : Nat) (nm : String) (fn : Fn)
    (hf : cg.funs.get? f = some fn) :
    ((appendBlock cg f nm).1).funs.get? f =
      some { fn with blockIds := fn.blockIds ++ [cg.blocks.length] } := by
  unfold appendBlock
  rw [hf]
  have hlt : f < cg.funs.length := by
    have := List.get?_eq_some.mp hf
    exact this.1
  simp [List.get?_eq_getElem?, List.getElem?_set_self hlt]

theorem appendBlock_fields (cg : CG) (f : Nat) (nm : String) :
    ((appendBlock cg f nm).1).blocks = cg.blocks ++ [Block.mk nm []] ∧
    ((appendBlock cg f nm).1).cur = cg.cur ∧
    ((appendBlock cg f nm).1).curFun = cg.curFun ∧
    ((appendBlock cg f nm).1).varsStack = cg.varsStack ∧
    ((appendBlock cg f nm).1).nreg = cg.nreg ∧
    (appendBlock cg f nm).2 = cg.blocks.length :=
  ⟨rfl, rfl, rfl, rfl, rfl, rfl⟩

end LL

theorem get_append_at {α : Type} (pre : List α) (x : α) (rest : List α) :
    (pre ++ x :: rest)[pre.length]? = some x := by
  induction pre with
  | nil => simp
  | cons a l ih => simpa using ih

theorem set_append_at {α : Type} (pre : List α) (x y : α) (rest : List α) :
    (pre ++ x :: rest).set pre.length y = pre ++ y :: rest := by
  induction pre with
  | nil => rfl
  | cons a l ih => simpa using ih

namespace BC

theorem nsteps_add (m n : Nat) (s : VMState) :
    nsteps (m + n) s =
      match nsteps m s with
      | .cont s' => nsteps n s'
      | r => r := by
  induction m generalizing s with
  | zero => simp [nsteps]
  | succ k ih =>
      have : k + 1 + n = (k + n) + 1 := by omega
      rw [this]
      show (match step s with
            | .cont s' => nsteps (k + n) s'
            | r => r) = _
      cases hs : step s with
      | cont s' => simpa [nsteps, hs] using ih s'
      | halted s' => simp [nsteps, hs]
      | fault f v => simp [nsteps, hs]

theorem nsteps_cont_trans {m : Nat} {s s' : VMState} (n : Nat)
    (h : nsteps m s = .cont s') : nsteps (m + n) s = nsteps n s' := by
  rw [nsteps_add, h]

theorem nsteps_halted_mono {m : Nat} {s h : VMState} (n : Nat)
    (hh : nsteps m s = .halted h) : nsteps (m + n) s = .halted h := by
  rw [nsteps_add, hh]

theorem nsteps_fault_mono {m : Nat} {s : VMState} {f : Fault}
    {v : List (String × Int)} (n : Nat)
    (hf : nsteps m s = .fault f v) : nsteps (m + n) s = .fault f v := by
  rw [nsteps_add, hf]

theorem run_eq_nsteps (fuel : Nat) (s : VMState) :
    run fuel s =
      match nsteps fuel s with
      | .cont _ => RunRes.outOfFuel
      | .halted h => .halted h
      | .fault f v => .fault f v := by
  induction fuel generalizing s with
  | zero => simp [run, nsteps]
  | succ k ih =>
      show (match step s with
            | .cont s' => run k s'
            | .halted s' => .halted s'
            | .fault f v => .fault f v) = _
      cases hs : step s with
      | cont s' => simpa [nsteps, hs] using ih s'
      | halted s' => simp [nsteps, hs]
      | fault f v => simp [nsteps, hs]

theorem nsteps_halted_unique {m n : Nat} {s h h' : VMState}
    (h1 : nsteps m s = .halted h) (h2 : nsteps n s = .halted h') : h = h' := by
  have a1 := nsteps_halted_mono n h1
  have a2 := nsteps_halted_mono m h2
  rw [Nat.add_comm n m] at a2
  rw [a1] at a2
  exact (StepRes.halted.injEq _ _ ▸ a2).symm ▸ rfl

theorem nsteps_halted_fault_absurd {m n : Nat} {s h : VMState} {f : Fault}
    {v : List (String × Int)}
    (h1 : nsteps m s = .halted h) (h2 : nsteps n s = .fault f v) : False := by
  have a1 := nsteps_halted_mono n h1
  have a2 := nsteps_fault_mono m h2
  rw [Nat.add_comm n m] at a2
  rw [a1] at a2
  exact StepRes.noConfusion a2

theorem compile_expr_eq (code : List Instr) (e : Expr) :
    compile_expr code e = (exprFrag e).map (code ++ ·) := by
  induction e generalizing code with
  | number n => simp [compile_expr, exprFrag]
  | identifier name => simp [compile_expr, exprFrag]
  | binary l op r ihl ihr =>
      unfold exprFrag
      simp only [compile_expr]
      rw [ihl, ihl]
      cases hfl : exprFrag l with
      | none => simp
      | some f1 =>
          simp only [Option.map_some', Option.bind_eq_bind, Option.some_bind, List.nil_append]
          rw [ihr, ihr]
          cases hfr : exprFrag r with
          | none => simp
          | some f2 =>
              simp only [Option.map_some', Option.bind_eq_bind, Option.some_bind]
              split <;> simp_all

theorem compile_stmt_frag_aux : ∀ k : Nat,
    (∀ s : Stmt, sizeOf s ≤ k → ∀ code,
        compile_stmt code s = (stmtFrag code.length s).map (code ++ ·)) ∧
    (∀ ss : List Stmt, sizeOf ss ≤ k → ∀ code,
        compile_stmts code ss = (stmtsFrag code.length ss).map (code ++ ·)) := by
  intro k
  induction k with
  | zero =>
      constructor
      · intro s hs; cases s <;> simp at hs <;> omega
      · intro ss hs; cases ss <;> simp at hs <;> omega
  | succ k ih =>
      obtain ⟨ihs, ihss⟩ := ih
      constructor
      · intro s hs code
        cases s with
        | varDecl name varType value =>
            simp only [compile_stmt, stmtFrag]
            rw [compile_expr_eq]
            cases exprFrag value <;> simp
        | assignment name value =>
            simp only [compile_stmt, stmtFrag]
            rw [compile_expr_eq]
            cases exprFrag value <;> simp
        | ifStmt condition thenBranch =>
            have hthn : sizeOf thenBranch ≤ k := by
              simp at hs; omega
            simp only [compile_stmt, stmtFrag]
            rw [compile_expr_eq]
            cases hf : exprFrag condition with
            | none => simp
            | some f1 =>
                simp only [Option.map_some', Option.bind_eq_bind,
                  Option.some_bind]
                rw [ihss thenBranch hthn]
                have hlen : (code ++ f1 ++ [Instr.jumpIfFalse 0]).length =
                    code.length + f1.length + 1 := by
                  simp only [List.length_append, List.length_cons,
                    List.length_nil]
                rw [hlen]
                cases ht : stmtsFrag (code.length + f1.length + 1)
                    thenBranch with
                | none => simp
                | some tf =>
                    simp only [Option.map_some', Option.bind_eq_bind,
                      Option.some_bind]
                    have hset : (code ++ f1 ++ [Instr.jumpIfFalse 0] ++ tf).set
                        (code ++ f1).length
                        (Instr.jumpIfFalse
                          (code ++ f1 ++ [Instr.jumpIfFalse 0] ++ tf).length) =
                        (code ++ f1) ++
                          Instr.jumpIfFalse
                            (code.length + f1.length + 1 + tf.length) :: tf := by
                      have h1 : code ++ f1 ++ [Instr.jumpIfFalse 0] ++ tf =
                          (code ++ f1) ++ Instr.jumpIfFalse 0 :: tf := by simp
                      rw [h1]
                      have h2 :
                          ((code ++ f1) ++ Instr.jumpIfFalse 0 :: tf).length =
                          code.length + f1.length + 1 + tf.length := by
                        simp only [List.length_append, List.length_cons]
                        omega
                      rw [h2, set_append_at]
                    rw [hset]
                    simp
      · intro ss hs code
        cases ss with
        | nil => simp [compile_stmts, stmtsFrag]
        | cons s rest =>
            have hs1 : sizeOf s ≤ k := by simp at hs; omega
            have hs2 : sizeOf rest ≤ k := by simp at hs; omega
            simp only [compile_stmts, stmtsFrag]
            rw [ihs s hs1]
            cases hf : stmtFrag code.length s with
            | none => simp
            | some f =>
                simp only [Option.map_some', Option.bind_eq_bind,
                  Option.some_bind]
                rw [ihss rest hs2]
                have hlen : (code ++ f).length = code.length + f.length := by
                  simp
                rw [hlen]
                cases stmtsFrag (code.length + f.length) rest <;> simp

theorem compile_stmt_eq (code : List Instr) (s : Stmt) :
    compile_stmt code s = (stmtFrag code.length s).map (code ++ ·) :=
  (compile_stmt_frag_aux (sizeOf s)).1 s (Nat.le_refl _) code

theorem compile_stmts_eq (code : List Instr) (ss : List Stmt) :
    compile_stmts code ss = (stmtsFrag code.length ss).map (code ++ ·) :=
  (compile_stmt_frag_aux (sizeOf ss)).2 ss (Nat.le_refl _) code

theorem exprFrag_binary (l : Expr) (op : String) (r : Expr) :
    exprFrag (.binary l op r) = (do
      let f1 ← exprFrag l
      let f2 ← exprFrag r
      let i ← opInstr op
      pure (f1 ++ f2 ++ [i])) := by
  show compile_expr [] (.binary l op r) = _
  simp only [compile_expr]
  rw [show compile_expr [] l = exprFrag l from rfl]
  cases hl : exprFrag l with
  | none => simp
  | some f1 =>
      simp only [Option.bind_eq_bind, Option.some_bind]
      rw [compile_expr_eq]
      cases hr : exprFrag r with
      | none => simp
      | some f2 =>
          simp only [Option.map_some', Option.some_bind]
          unfold opInstr
          split <;> simp

theorem step_op {op : String} {i : Instr} (hop : opInstr op = some i)
    (code : List Instr) (ip : Nat) (st : List Int)
    (vars : List (String × Int)) (a b : Int)
    (hget : code[ip]? = some i) :
    step ⟨ip, b :: a :: st, code, vars⟩ =
      match applyOp op a b with
      | some v => .cont ⟨ip + 1, v :: st, code, vars⟩
      | none => .fault .arithFault vars := by
  unfold opInstr at hop
  split at hop
  all_goals try exact Option.noConfusion hop
  all_goals cases hop
  all_goals cases hd : applyDiv a b <;> simp [step, hget, applyOp, hd]

theorem exec_expr : ∀ (e : Expr) (frag : List Instr),
    exprFrag e = some frag →
    ∀ (pre suffix : List Instr) (st : List Int)
      (vars : List (String × Int)) (C : List Instr),
    C = pre ++ frag ++ suffix →
    (∀ v, evalB vars e = some v →
      ∃ n, nsteps n ⟨pre.length, st, C, vars⟩ =
        .cont ⟨pre.length + frag.length, v :: st, C, vars⟩) ∧
    (evalB vars e = none →
      ∃ n, nsteps n ⟨pre.length, st, C, vars⟩ = .fault .arithFault vars) := by
  intro e
  induction e with
  | number m =>
      intro frag hfrag pre suffix st vars C hC
      have hf : frag = [Instr.pushInt m] := by
        simpa [exprFrag, compile_expr] using hfrag.symm
      subst hf
      constructor
      · intro v hv
        obtain rfl := (by simpa [evalB] using hv : m = v)
        refine ⟨1, ?_⟩
        have hget : C[pre.length]? = some (Instr.pushInt m) := by
          rw [hC, List.append_assoc]
          exact get_append_at pre _ suffix
        simp [nsteps, step, hget]
      · intro hv
        simp [evalB] at hv
  | identifier name =>
      intro frag hfrag pre suffix st vars C hC
      have hf : frag = [Instr.load name] := by
        simpa [exprFrag, compile_expr] using hfrag.symm
      subst hf
      constructor
      · intro v hv
        have hv' : v = (lookupVar vars name).getD 0 := by
          simpa [evalB] using hv.symm
        subst hv'
        refine ⟨1, ?_⟩
        have hget : C[pre.length]? = some (Instr.load name) := by
          rw [hC, List.append_assoc]
          exact get_append_at pre _ suffix
        simp [nsteps, step, hget]
      · intro hv
        simp [evalB] at hv
  | binary l op r ihl ihr =>
      intro frag hfrag pre suffix st vars C hC
      rw [exprFrag_binary] at hfrag
      cases hl : exprFrag l with
      | none => rw [hl] at hfrag; exact Option.noConfusion hfrag
      | some f1 =>
      cases hr : exprFrag r with
      | none => rw [hl, hr] at hfrag; exact Option.noConfusion hfrag
      | some f2 =>
      cases hop : opInstr op with
      | none => rw [hl, hr, hop] at hfrag; exact Option.noConfusion hfrag
      | some i =>
      rw [hl, hr, hop] at hfrag
      simp only [Option.bind_eq_bind, Option.some_bind, Option.pure_def]
        at hfrag
      have hf : frag = f1 ++ f2 ++ [i] := (Option.some.injEq _ _ ▸ hfrag).symm
      subst hf
      have hCl : C = pre ++ f1 ++ (f2 ++ [i] ++ suffix) := by
        rw [hC]; simp [List.append_assoc]
      have hCr : C = (pre ++ f1) ++ f2 ++ ([i] ++ suffix) := by
        rw [hC]; simp [List.append_assoc]
      have hgi : C[pre.length + f1.length + f2.length]? = some i := by
        have : C = ((pre ++ f1) ++ f2) ++ i :: suffix := by
          rw [hC]; simp [List.append_assoc]
        rw [this]
        have hlen : pre.length + f1.length + f2.length =
            ((pre ++ f1) ++ f2).length := by
          simp only [List.length_append]
        rw [hlen]
        exact get_append_at _ _ _
      have IHl := ihl f1 hl pre (f2 ++ [i] ++ suffix) st vars C hCl
      constructor
      · intro v hv
        have hsplit : ∃ a b, evalB vars l = some a ∧ evalB vars r = some b ∧
            applyOp op a b = some v := by
          cases el : evalB vars l with
          | none => rw [evalB, el] at hv; exact Option.noConfusion hv
          | some a =>
              cases er : evalB vars r with
              | none => rw [evalB, el, er] at hv; simp at hv
              | some b =>
                  refine ⟨a, b, rfl, rfl, ?_⟩
                  rw [evalB, el, er] at hv
                  simpa using hv
        obtain ⟨a, b, el, er, hab⟩ := hsplit
        obtain ⟨n1, hn1⟩ := IHl.1 a el
        have IHr := ihr f2 hr (pre ++ f1) ([i] ++ suffix) (a :: st) vars C hCr
        obtain ⟨n2, hn2⟩ := IHr.1 b er
        have hip : (pre ++ f1).length = pre.length + f1.length := by simp
        rw [hip] at hn2
        refine ⟨n1 + (n2 + 1), ?_⟩
        rw [nsteps_cont_trans _ hn1]
        rw [nsteps_add, hn2]
        have := step_op hop C (pre.length + f1.length + f2.length) st vars a b
          hgi
        rw [hab] at this
        simp only [nsteps, this]
        have hlen2 : pre.length + (f1 ++ f2 ++ [i]).length =
            pre.length + f1.length + f2.length + 1 := by simp; omega
        rw [hlen2]
      · intro hv
        cases el : evalB vars l with
        | none =>
            obtain ⟨n1, hn1⟩ := IHl.2 el
            exact ⟨n1, hn1⟩
        | some a =>
            obtain ⟨n1, hn1⟩ := IHl.1 a el
            have IHr := ihr f2 hr (pre ++ f1) ([i] ++ suffix) (a :: st) vars C
              hCr
            have hip : (pre ++ f1).length = pre.length + f1.length := by simp
            rw [hip] at IHr
            cases er : evalB vars r with
            | none =>
                obtain ⟨n2, hn2⟩ := IHr.2 er
                refine ⟨n1 + n2, ?_⟩
                rw [nsteps_cont_trans _ hn1]
                exact hn2
            | some b =>
                have hab : applyOp op a b = none := by
                  rw [evalB, el, er] at hv
                  simpa using hv
                obtain ⟨n2, hn2⟩ := IHr.1 b er
                refine ⟨n1 + (n2 + 1), ?_⟩
                rw [nsteps_cont_trans _ hn1]
                rw [nsteps_add, hn2]
                have := step_op hop C (pre.length + f1.length + f2.length) st
                  vars a b hgi
                rw [hab] at this
                simp [nsteps, this]

theorem exec_stmt_aux : ∀ k : Nat,
    (∀ s : Stmt, sizeOf s ≤ k →
      ∀ (pre frag suffix : List Instr) (st : List Int)
        (vars : List (String × Int)) (C : List Instr),
      stmtFrag pre.length s = some frag → C = pre ++ frag ++ suffix →
      (∃ n vars', nsteps n ⟨pre.length, st, C, vars⟩ =
          .cont ⟨pre.length + frag.length, st, C, vars'⟩) ∨
      (∃ n vars', nsteps n ⟨pre.length, st, C, vars⟩ =
          .fault .arithFault vars')) ∧
    (∀ ss : List Stmt, sizeOf ss ≤ k →
      ∀ (pre frag suffix : List Instr) (st : List Int)
        (vars : List (String × Int)) (C : List Instr),
      stmtsFrag pre.length ss = some frag → C = pre ++ frag ++ suffix →
      (∃ n vars', nsteps n ⟨pre.length, st, C, vars⟩ =
          .cont ⟨pre.length + frag.length, st, C, vars'⟩) ∨
      (∃ n vars', nsteps n ⟨pre.length, st, C, vars⟩ =
          .fault .arithFault vars')) := by
  intro k
  induction k with
  | zero =>
      constructor
      · intro s hs; cases s <;> simp at hs <;> omega
      · intro ss hs; cases ss <;> simp at hs <;> omega
  | succ k ih =>
      obtain ⟨ihs, ihss⟩ := ih
      have hstore : ∀ (name : String) (value : Expr) (f : List Instr),
          exprFrag value = some f →
          ∀ (pre suffix : List Instr) (st : List Int)
            (vars : List (String × Int)) (C : List Instr),
          C = pre ++ (f ++ [Instr.store name]) ++ suffix →
          (∃ n vars', nsteps n ⟨pre.length, st, C, vars⟩ =
              .cont ⟨pre.length + (f ++ [Instr.store name]).length, st, C,
                vars'⟩) ∨
          (∃ n vars', nsteps n ⟨pre.length, st, C, vars⟩ =
              .fault .arithFault vars') := by
        intro name value f hf pre suffix st vars C hC
        have hC1 : C = pre ++ f ++ ([Instr.store name] ++ suffix) := by
          rw [hC]; simp [List.append_assoc]
        have hE := exec_expr value f hf pre ([Instr.store name] ++ suffix) st
          vars C hC1
        have hget : C[pre.length + f.length]? = some (Instr.store name) := by
          have h1 : C = (pre ++ f) ++ Instr.store name :: suffix := by
            rw [hC]; simp [List.append_assoc]
          have h2 : pre.length + f.length = (pre ++ f).length := by simp
          rw [h1, h2]
          exact get_append_at _ _ _
        cases hev : evalB vars value with
        | some x =>
            obtain ⟨n1, hn1⟩ := hE.1 x hev
            left
            refine ⟨n1 + 1, insertVar name x vars, ?_⟩
            rw [nsteps_cont_trans _ hn1]
            have hlen : pre.length + (f ++ [Instr.store name]).length =
                pre.length + f.length + 1 := by simp; omega
            rw [hlen]
            simp [nsteps, step, hget, insertVar]
        | none =>
            obtain ⟨n1, hn1⟩ := hE.2 hev
            exact Or.inr ⟨n1, vars, hn1⟩
      constructor
      · intro s hs pre frag suffix st vars C hfrag hC
        cases s with
        | varDecl name varType value =>
            simp only [stmtFrag] at hfrag
            cases hf : exprFrag value with
            | none => rw [hf] at hfrag; exact Option.noConfusion hfrag
            | some f =>
                rw [hf] at hfrag
                simp only [Option.map_some'] at hfrag
                obtain rfl := (Option.some.injEq _ _ ▸ hfrag : _ = frag)
                exact hstore name value f hf pre suffix st vars C hC
        | assignment name value =>
            simp only [stmtFrag] at hfrag
            cases hf : exprFrag value with
            | none => rw [hf] at hfrag; exact Option.noConfusion hfrag
            | some f =>
                rw [hf] at hfrag
                simp only [Option.map_some'] at hfrag
                obtain rfl := (Option.some.injEq _ _ ▸ hfrag : _ = frag)
                exact hstore name value f hf pre suffix st vars C hC
        | ifStmt condition thenBranch =>
            have hthn : sizeOf thenBranch ≤ k := by simp at hs; omega
            simp only [stmtFrag] at hfrag
            cases hf1 : exprFrag condition with
            | none => rw [hf1] at hfrag; exact Option.noConfusion hfrag
            | some f1 =>
            rw [hf1] at hfrag
            simp only [Option.bind_eq_bind, Option.some_bind] at hfrag
            cases htf : stmtsFrag (pre.length + f1.length + 1) thenBranch with
            | none => rw [htf] at hfrag; exact Option.noConfusion hfrag
            | some tf =>
            rw [htf] at hfrag
            simp only [Option.pure_def] at hfrag
            obtain rfl := (Option.some.injEq _ _ ▸ hfrag : _ = frag)
            have hC1 : C = pre ++ f1 ++
                ((Instr.jumpIfFalse
                    (pre.length + f1.length + 1 + tf.length) :: tf) ++
                  suffix) := by
              rw [hC]; simp [List.append_assoc]
            have hE := exec_expr condition f1 hf1 pre _ st vars C hC1
            have hget : C[pre.length + f1.length]? =
                some (Instr.jumpIfFalse
                  (pre.length + f1.length + 1 + tf.length)) := by
              have h1 : C = (pre ++ f1) ++
                  Instr.jumpIfFalse (pre.length + f1.length + 1 + tf.length) ::
                    (tf ++ suffix) := by
                rw [hC]; simp [List.append_assoc]
              have h2 : pre.length + f1.length = (pre ++ f1).length := by simp
              rw [h1, h2]
              exact get_append_at _ _ _
            cases hev : evalB vars condition with
            | none =>
                obtain ⟨n1, hn1⟩ := hE.2 hev
                exact Or.inr ⟨n1, vars, hn1⟩
            | some v =>
                obtain ⟨n1, hn1⟩ := hE.1 v hev
                by_cases hv0 : v = 0
                · left
                  refine ⟨n1 + 1, vars, ?_⟩
                  rw [nsteps_cont_trans _ hn1]
                  have hlen : pre.length +
                      (f1 ++ Instr.jumpIfFalse
                        (pre.length + f1.length + 1 + tf.length) ::
                          tf).length =
                      pre.length + f1.length + 1 + tf.length := by
                    simp; omega
                  rw [hlen]
                  simp [nsteps, step, hget, hv0]
                · have hstep : nsteps 1
                      ⟨pre.length + f1.length, v :: st, C, vars⟩ =
                      .cont ⟨pre.length + f1.length + 1, st, C, vars⟩ := by
                    simp [nsteps, step, hget, hv0]
                  have hC2 : C = (pre ++ f1 ++
                      [Instr.jumpIfFalse
                        (pre.length + f1.length + 1 + tf.length)]) ++ tf ++
                      suffix := by
                    rw [hC]; simp [List.append_assoc]
                  have hlen2 : (pre ++ f1 ++
                      [Instr.jumpIfFalse
                        (pre.length + f1.length + 1 + tf.length)]).length =
                      pre.length + f1.length + 1 := by simp; omega
                  have hIH := ihss thenBranch hthn
                    (pre ++ f1 ++
                      [Instr.jumpIfFalse
                        (pre.length + f1.length + 1 + tf.length)])
                    tf suffix st vars C (by rw [hlen2]; exact htf) hC2
                  rw [hlen2] at hIH
                  cases hIH with
                  | inl h =>
                      obtain ⟨n2, vars', hn2⟩ := h
                      left
                      refine ⟨n1 + (1 + n2), vars', ?_⟩
                      rw [nsteps_cont_trans _ hn1]
                      rw [nsteps_cont_trans _ hstep]
                      rw [hn2]
                      have hfin : pre.length +
                          (f1 ++ Instr.jumpIfFalse
                            (pre.length + f1.length + 1 + tf.length) ::
                              tf).length =
                          pre.length + f1.length + 1 + tf.length := by
                        simp; omega
                      rw [hfin]
                  | inr h =>
                      obtain ⟨n2, vars', hn2⟩ := h
                      right
                      refine ⟨n1 + (1 + n2), vars', ?_⟩
                      rw [nsteps_cont_trans _ hn1]
                      rw [nsteps_cont_trans _ hstep]
                      exact hn2
      · intro ss hs pre frag suffix st vars C hfrag hC
        cases ss with
        | nil =>
            simp only [stmtsFrag, Option.pure_def] at hfrag
            obtain rfl := (Option.some.injEq _ _ ▸ hfrag : _ = frag)
            left
            exact ⟨0, vars, by simp [nsteps]⟩
        | cons s rest =>
            have hs1 : sizeOf s ≤ k := by simp at hs; omega
            have hs2 : sizeOf rest ≤ k := by simp at hs; omega
            simp only [stmtsFrag] at hfrag
            cases hf : stmtFrag pre.length s with
            | none => rw [hf] at hfrag; exact Option.noConfusion hfrag
            | some f =>
            rw [hf] at hfrag
            simp only [Option.bind_eq_bind, Option.some_bind] at hfrag
            cases hfr : stmtsFrag (pre.length + f.length) rest with
            | none => rw [hfr] at hfrag; exact Option.noConfusion hfrag
            | some fr =>
            rw [hfr] at hfrag
            simp only [Option.pure_def] at hfrag
            obtain rfl := (Option.some.injEq _ _ ▸ hfrag : _ = frag)
            have hC1 : C = pre ++ f ++ (fr ++ suffix) := by
              rw [hC]; simp [List.append_assoc]
            have hH := ihs s hs1 pre f (fr ++ suffix) st vars C hf hC1
            cases hH with
            | inr h => exact Or.inr h
            | inl h =>
                obtain ⟨n1, vars1, hn1⟩ := h
                have hC2 : C = (pre ++ f) ++ fr ++ suffix := by
                  rw [hC]; simp [List.append_assoc]
                have hlen : (pre ++ f).length = pre.length + f.length := by
                  simp
                have hIH := ihss rest hs2 (pre ++ f) fr suffix st vars1 C
                  (by rw [hlen]; exact hfr) hC2
                rw [hlen] at hIH
                cases hIH with
                | inl h2 =>
                    obtain ⟨n2, vars2, hn2⟩ := h2
                    left
                    refine ⟨n1 + n2, vars2, ?_⟩
                    rw [nsteps_cont_trans _ hn1, hn2]
                    have : pre.length + f.length + fr.length =
                        pre.length + (f ++ fr).length := by simp; omega
                    rw [this]
                | inr h2 =>
                    obtain ⟨n2, vars2, hn2⟩ := h2
                    right
                    refine ⟨n1 + n2, vars2, ?_⟩
                    rw [nsteps_cont_trans _ hn1]
                    exact hn2

theorem exec_stmts (ss : List Stmt) (pre frag suffix : List Instr)
    (st : List Int) (vars : List (String × Int)) (C : List Instr)
    (hfrag : stmtsFrag pre.length ss = some frag)
    (hC : C = pre ++ frag ++ suffix) :
    (∃ n vars', nsteps n ⟨pre.length, st, C, vars⟩ =
        .cont ⟨pre.length + frag.length, st, C, vars'⟩) ∨
    (∃ n vars', nsteps n ⟨pre.length, st, C, vars⟩ =
        .fault .arithFault vars') :=
  (exec_stmt_aux (sizeOf ss)).2 ss (Nat.le_refl _) pre frag suffix st vars C
    hfrag hC

theorem compiled_program_shape {p : Program} {code : List Instr}
    (h : compile_program p = some code) :
    ∃ c, stmtsFrag 0 p.statements = some c ∧ code = c ++ [Instr.halt] := by
  unfold compile_program at h
  cases hc : compile_stmts [] p.statements with
  | none => rw [hc] at h; exact Option.noConfusion h
  | some c =>
      rw [hc] at h
      simp only [Option.bind_eq_bind, Option.some_bind] at h
      have hcode : c ++ [Instr.halt] = code := by simpa using h
      have he := compile_stmts_eq [] p.statements
      rw [hc] at he
      cases hsf : stmtsFrag 0 p.statements with
      | none =>
          rw [show (([] : List Instr)).length = 0 from rfl, hsf] at he
          exact Option.noConfusion he
      | some c' =>
          rw [show (([] : List Instr)).length = 0 from rfl, hsf] at he
          simp only [Option.map_some', List.nil_append] at he
          obtain rfl : c = c' := by simpa using he
          exact ⟨c, rfl, hcode.symm⟩

theorem run_halted_stack_empty {p : Program} {code : List Instr}
    (h : compile_program p = some code) (fuel : Nat) (s : VMState)
    (hrun : run fuel (initVM code) = .halted s) : s.stack = [] := by
  obtain ⟨c, hfrag, rfl⟩ := compiled_program_shape h
  have hexec := exec_stmts p.statements [] c [Instr.halt] [] [] (c ++ [.halt])
    hfrag (by simp)
  rw [run_eq_nsteps] at hrun
  have hns : nsteps fuel (initVM (c ++ [Instr.halt])) = .halted s := by
    cases hx : nsteps fuel (initVM (c ++ [Instr.halt])) with
    | cont s' => rw [hx] at hrun; exact RunRes.noConfusion hrun
    | halted s' =>
        rw [hx] at hrun
        simp at hrun
        rw [hrun]
    | fault f v => rw [hx] at hrun; exact RunRes.noConfusion hrun
  cases hexec with
  | inl hcont =>
      obtain ⟨n, vars', hn⟩ := hcont
      have hget : (c ++ [Instr.halt])[c.length]? = some Instr.halt :=
        get_append_at c _ []
      have hstop : nsteps (n + 1) (initVM (c ++ [Instr.halt])) =
          .halted ⟨c.length, [], c ++ [Instr.halt], vars'⟩ := by
        have hs1 : nsteps 1 ⟨c.length, [], c ++ [Instr.halt], vars'⟩ =
            .halted ⟨c.length, [], c ++ [Instr.halt], vars'⟩ := by
          simp [nsteps, step, hget]
        have hn' : nsteps n (initVM (c ++ [Instr.halt])) =
            .cont ⟨c.length, [], c ++ [Instr.halt], vars'⟩ := by
          simpa [initVM] using hn
        rw [nsteps_cont_trans _ hn']
        exact hs1
      have := nsteps_halted_unique hns hstop
      rw [this]
  | inr hfault =>
      obtain ⟨n, vars', hn⟩ := hfault
      have hn' : nsteps n (initVM (c ++ [Instr.halt])) =
          .fault .arithFault vars' := by
        simpa [initVM] using hn
      exact (nsteps_halted_fault_absurd hns hn').elim

end BC

theorem evalB_toBC (a : AExp) (vars : List (String × Int)) :
    BC.evalB vars a.toBC = a.evalA := by
  induction a with
  | num n => rfl
  | bin l op r ihl ihr => simp [AExp.toBC, BC.evalB, AExp.evalA, ihl, ihr]

theorem exprFrag_toBC_isSome (a : AExp) (h : a.wf) :
    ∃ frag, BC.exprFrag a.toBC = some frag := by
  induction a with
  | num n => exact ⟨[.pushInt n], rfl⟩
  | bin l op r ihl ihr =>
      obtain ⟨hop, hl, hr⟩ := h
      obtain ⟨f1, hf1⟩ := ihl hl
      obtain ⟨f2, hf2⟩ := ihr hr
      have : ∃ i, BC.opInstr op = some i := by
        simp only [List.mem_cons, List.not_mem_nil, or_false] at hop
        rcases hop with rfl | rfl | rfl | rfl | rfl | rfl | rfl | rfl <;>
          exact ⟨_, rfl⟩
      obtain ⟨i, hi⟩ := this
      refine ⟨f1 ++ f2 ++ [i], ?_⟩
      rw [AExp.toBC, BC.exprFrag_binary, hf1, hf2, hi]
      rfl

namespace LL

set_option maxHeartbeats 1000000 in
/-- Claim C4 (amended): lowering an `If` always creates three blocks —
`then`, `else`, and `after_if` — whether or not an else-branch exists
(an "else only when present" reading does not hold of the code).  For
straight-line branch bodies: the then block
ends with exactly one terminator, an unconditional branch to `after_if`;
when an else-branch is present the else block does too and the
conditional branch targets then/else; when it is absent the else block
stays empty (no terminator) and the conditional branch targets the then
block and `after_if` directly; subsequent statements lower into
`after_if`. -/
theorem ll_if_lowering
    (cg cg' : CG) (condition : Expr) (thenBranch : List Stmt)
    (elseBranch : Option (List Stmt)) (fn : Fn) (parent : Nat)
    (hcomp : compile_stmt cg (.ifStmt condition thenBranch elseBranch) =
      .ok cg')
    (hthn : allSL thenBranch)
    (hels : ∀ es, elseBranch = some es → allSL es)
    (hcur : cg.cur < cg.blocks.length)
    (hpf : cg.curFun = some parent)
    (hfn : cg.funs.get? parent = some fn)
    (hnn : fn.blockIds ≠ [])
    (hbnd : ∀ b ∈ fn.blockIds, b < cg.blocks.length) :
    ∃ r,
    cg'.blocks.length = cg.blocks.length + 3 ∧
    blockName cg' cg.blocks.length = "then" ∧
    blockName cg' (cg.blocks.length + 1) = "else" ∧
    blockName cg' (cg.blocks.length + 2) = "after_if" ∧
    cg'.cur = cg.blocks.length + 2 ∧
    blockInstrs cg' (cg.blocks.length + 2) = [] ∧
    (blockInstrs cg' cg.blocks.length).filter isTerm =
      [.br (cg.blocks.length + 2)] ∧
    (blockInstrs cg' cg.blocks.length).getLast? =
      some (.br (cg.blocks.length + 2)) ∧
    (elseBranch = none →
      blockInstrs cg' (cg.blocks.length + 1) = [] ∧
      LInstr.condbr (.reg r) cg.blocks.length (cg.blocks.length + 2) ∈
        blockInstrs cg' cg.cur) ∧
    (∀ es, elseBranch = some es →
      (blockInstrs cg' (cg.blocks.length + 1)).filter isTerm =
        [.br (cg.blocks.length + 2)] ∧
      (blockInstrs cg' (cg.blocks.length + 1)).getLast? =
        some (.br (cg.blocks.length + 2)) ∧
      LInstr.condbr (.reg r) cg.blocks.length (cg.blocks.length + 1) ∈
        blockInstrs cg' cg.cur) := by
  unfold compile_stmt at hcomp
  obtain ⟨⟨cg1, condVal⟩, hce, h⟩ := except_bind_ok hcomp
  dsimp only at h
  have P1 := ll_expr_preserves hce
  have hcf1 : cg1.curFun = some parent := by rw [P1.1.2.1, hpf]
  rw [hcf1] at h
  dsimp only [appendBlock] at h
  have hplt : parent < cg.funs.length := (List.get?_eq_some.mp hfn).1
  have hfn1 : cg1.funs.get? parent = some fn := by
    rw [P1.1.2.2.1]; exact hfn
  have hL1 : cg1.blocks.length = cg.blocks.length := P1.1.2.2.2.2.1.1
  have hcur1 : cg1.cur = cg.cur := P1.1.1
  have hcurlt1 : cg1.cur < cg1.blocks.length := by
    rw [hcur1, hL1]; exact hcur
  have hplt1 : parent < cg1.funs.length := by rw [P1.1.2.2.1]; exact hplt
  have hcurne : cg1.blocks.length ≠ cg1.cur := by omega
  have hcurne1 : cg1.blocks.length + 1 ≠ cg1.cur := by omega
  have hcurne2 : cg1.blocks.length + 2 ≠ cg1.cur := by omega
  obtain ⟨e, hE⟩ : ∃ e, fn.blockIds.head? = some e := by
    cases hbi : fn.blockIds with
    | nil => exact absurd hbi hnn
    | cons a t => exact ⟨a, rfl⟩
  have heL : e < cg.blocks.length := by
    apply hbnd
    cases hbi : fn.blockIds with
    | nil => exact absurd hbi hnn
    | cons a t =>
        rw [hbi] at hE
        obtain rfl : a = e := by simpa using hE
        simp [hbi]
  have hA : (cg1.blocks ++ [Block.mk "then" []] ++
      [Block.mk "else" []]).length = cg.blocks.length + 2 := by
    simp only [List.length_append, List.length_cons, List.length_nil]
    omega
  cases elseBranch with
  | none =>
      simp only [Option.isSome_none, Bool.false_eq_true, if_false] at h
      obtain ⟨cg8, hthen, h⟩ := except_bind_ok h
      simp only [pure, Except.pure, bind, Except.bind, Except.ok.injEq] at h
      subst h
      have P8 := sl_stmts_preserves hthn hthen
      have h8cur : cg8.cur = cg1.blocks.length := P8.1.1
      have hE8 : entryOf cg8 = fn.blockIds.head? := by
        rw [entryOf_eq_of P8.1.2.1 P8.1.2.2.1]
        simp only [entryOf, pushScope, position, emit, hcf1, hfn1,
          List.get?_eq_getElem?, List.length_set, List.getElem?_set_self,
          hplt1]
        rw [head_append_ne_nil _ _ (by simp), head_append_ne_nil _ _ (by simp),
            head_append_ne_nil _ _ hnn]
      have hlen8 : cg8.blocks.length = cg1.blocks.length + 3 := by
        rw [P8.1.2.2.2.2.1.1]
        show (appendInstr (appendInstr _ cg1.cur _) cg1.cur _).length = _
        rw [appendInstr_length, appendInstr_length]
        simp only [List.length_append, List.length_cons, List.length_nil]
      have hb8T : ∃ ext,
          cg8.blocks[cg1.blocks.length]? =
            some (Block.mk "then" ([] ++ ext)) ∧
          ∀ i ∈ ext, isTerm i = false := by
        refine P8.1.2.2.2.2.1.2 cg1.blocks.length (Block.mk "then" []) ?_
        show (appendInstr (appendInstr _ cg1.cur _) cg1.cur _)[cg1.blocks.length]? = some (Block.mk "then" [])
        rw [appendInstr_untouched _ _ _ _ hcurne,
            appendInstr_untouched _ _ _ _ hcurne]
        rw [List.getElem?_append_left (by
          simp only [List.length_append, List.length_cons, List.length_nil]
          omega)]
        rw [List.getElem?_append_left (by
          simp only [List.length_append, List.length_cons, List.length_nil]
          omega)]
        rw [List.getElem?_append_right (Nat.le_refl _)]
        simp
      obtain ⟨ext, hb8T, hextNT⟩ := hb8T
      have hUn : ∀ idx, idx ≠ cg1.blocks.length →
          fn.blockIds.head? ≠ some idx →
          cg8.blocks[idx]? =
            (appendInstr (appendInstr
              (cg1.blocks ++ [Block.mk "then" []] ++ [Block.mk "else" []] ++
                [Block.mk "after_if" []]) cg1.cur
              (.icmp cg1.nreg .pne condVal (.constInt 0))) cg1.cur
              (.condbr (.reg cg1.nreg) cg1.blocks.length
                ((cg1.blocks ++ [Block.mk "then" []] ++
                  [Block.mk "else" []]).length)))[idx]? := by
        intro idx h1 h2
        exact P8.1.2.2.2.2.2 idx h1
          (by rw [← entryOf_eq_of P8.1.2.1 P8.1.2.2.1, hE8]; exact h2)
      have hb8E : cg8.blocks[cg1.blocks.length + 1]? =
          some (Block.mk "else" []) := by
        rw [hUn (cg1.blocks.length + 1) (by omega)
            (by rw [hE]; intro hx; have := Option.some.inj hx; omega)]
        rw [appendInstr_untouched _ _ _ _ hcurne1,
            appendInstr_untouched _ _ _ _ hcurne1]
        rw [List.getElem?_append_left (by
          simp only [List.length_append, List.length_cons, List.length_nil]
          omega)]
        rw [List.getElem?_append_right (by
          simp only [List.length_append, List.length_cons, List.length_nil]
          omega)]
        simp
      have hb8A : cg8.blocks[cg1.blocks.length + 2]? =
          some (Block.mk "after_if" []) := by
        rw [hUn (cg1.blocks.length + 2) (by omega)
            (by rw [hE]; intro hx; have := Option.some.inj hx; omega)]
        rw [appendInstr_untouched _ _ _ _ hcurne2,
            appendInstr_untouched _ _ _ _ hcurne2]
        rw [List.getElem?_append_right (by
          simp only [List.length_append, List.length_cons, List.length_nil]
          omega)]
        simp only [List.length_append, List.length_cons, List.length_nil]
        rw [show cg1.blocks.length + 2 -
            (cg1.blocks.length + 1 + 1) = 0 from by omega]
        rfl
      obtain ⟨bP, hbP⟩ : ∃ bP, cg1.blocks[cg1.cur]? = some bP := by
        cases hx : cg1.blocks[cg1.cur]? with
        | none =>
            rw [List.getElem?_eq_none_iff] at hx
            omega
        | some b => exact ⟨b, rfl⟩
      have hb8P : ∃ extP,
          cg8.blocks[cg1.cur]? = some (Block.mk bP.name
            (((bP.instrs ++ [.icmp cg1.nreg .pne condVal (.constInt 0)]) ++
              [.condbr (.reg cg1.nreg) cg1.blocks.length
                ((cg1.blocks ++ [Block.mk "then" []] ++
                  [Block.mk "else" []]).length)]) ++ extP)) ∧
          ∀ i ∈ extP, isTerm i = false := by
        have hstep0 : (cg1.blocks ++ [Block.mk "then" []] ++
            [Block.mk "else" []] ++ [Block.mk "after_if" []])[cg1.cur]? =
            some bP := by
          rw [List.getElem?_append_left (by
            simp only [List.length_append, List.length_cons, List.length_nil]
            omega)]
          rw [List.getElem?_append_left (by
            simp only [List.length_append, List.length_cons, List.length_nil]
            omega)]
          rw [List.getElem?_append_left hcurlt1]
          exact hbP
        have hstep1 := appendInstr_get_self
          (LInstr.icmp cg1.nreg .pne condVal (.constInt 0)) hstep0
        have hstep2 := appendInstr_get_self
          (LInstr.condbr (.reg cg1.nreg) cg1.blocks.length
            ((cg1.blocks ++ [Block.mk "then" []] ++
              [Block.mk "else" []]).length)) hstep1
        exact P8.1.2.2.2.2.1.2 cg1.cur _ hstep2
      obtain ⟨extP, hb8P, hextPNT⟩ := hb8P
      -- final emit of the then-block terminator
      rw [hA] at hb8P ⊢
      rw [hL1] at hb8T hb8E hb8A hb8P h8cur hlen8 hcurlt1
      have hb9T : (appendInstr cg8.blocks cg8.cur
          (.br (cg.blocks.length + 2)))[cg.blocks.length]? =
          some (Block.mk "then"
            (([] ++ ext) ++ [.br (cg.blocks.length + 2)])) := by
        rw [h8cur]
        exact appendInstr_get_self _ hb8T
      have hb9E : (appendInstr cg8.blocks cg8.cur
          (.br (cg.blocks.length + 2)))[cg.blocks.length + 1]? =
          some (Block.mk "else" []) := by
        rw [appendInstr_untouched _ _ _ _ (by omega)]
        exact hb8E
      have hb9A : (appendInstr cg8.blocks cg8.cur
          (.br (cg.blocks.length + 2)))[cg.blocks.length + 2]? =
          some (Block.mk "after_if" []) := by
        rw [appendInstr_untouched _ _ _ _ (by omega)]
        exact hb8A
      have hb9P : (appendInstr cg8.blocks cg8.cur
          (.br (cg.blocks.length + 2)))[cg1.cur]? =
          some (Block.mk bP.name
            (((bP.instrs ++ [.icmp cg1.nreg .pne condVal (.constInt 0)]) ++
              [.condbr (.reg cg1.nreg) cg.blocks.length
                (cg.blocks.length + 2)]) ++ extP)) := by
        rw [appendInstr_untouched _ _ _ _ (by omega)]
        rw [← hL1] at hb8P
        rw [hb8P, hL1]
      have hfilterext : ext.filter isTerm = [] := by
        rw [List.filter_eq_nil_iff]
        intro a ha
        simp [hextNT a ha]
      refine ⟨cg1.nreg, ?_, ?_, ?_, ?_, ?_, ?_, ?_, ?_, ?_, ?_⟩
      · show (appendInstr cg8.blocks cg8.cur _).length = _
        rw [appendInstr_length, hlen8]
      · simp only [blockName, position, emit, popScope]
        rw [hb9T]
        rfl
      · simp only [blockName, position, emit, popScope]
        rw [hb9E]
        rfl
      · simp only [blockName, position, emit, popScope]
        rw [hb9A]
        rfl
      · rfl
      · simp only [blockInstrs, position, emit, popScope]
        rw [hb9A]
        rfl
      · simp only [blockInstrs, position, emit, popScope]
        rw [hb9T]
        simp only [Option.map_some', Option.getD_some, List.nil_append,
          List.filter_append, hfilterext]
        rfl
      · simp only [blockInstrs, position, emit, popScope]
        rw [hb9T]
        simp only [Option.map_some', Option.getD_some, List.nil_append]
        exact List.getLast?_concat _
      · intro hnone
        constructor
        · simp only [blockInstrs, position, emit, popScope]
          rw [hb9E]
          rfl
        · simp only [blockInstrs, position, emit, popScope]
          rw [← hcur1, hb9P]
          simp
      · intro es hes
        exact Option.noConfusion hes
  | some es =>
      simp only [Option.isSome_some, if_true] at h
      obtain ⟨cg8, hthen, h⟩ := except_bind_ok h
      obtain ⟨cg11, helse, h⟩ := except_bind_ok h
      simp only [pure, Except.pure, bind, Except.bind, Except.ok.injEq] at h
      subst h
      have P8 := sl_stmts_preserves hthn hthen
      have h8cur : cg8.cur = cg1.blocks.length := P8.1.1
      have hE8 : entryOf cg8 = fn.blockIds.head? := by
        rw [entryOf_eq_of P8.1.2.1 P8.1.2.2.1]
        simp only [entryOf, pushScope, position, emit, hcf1, hfn1,
          List.get?_eq_getElem?, List.length_set, List.getElem?_set_self,
          hplt1]
        rw [head_append_ne_nil _ _ (by simp), head_append_ne_nil _ _ (by simp),
            head_append_ne_nil _ _ hnn]
      have hlen8 : cg8.blocks.length = cg1.blocks.length + 3 := by
        rw [P8.1.2.2.2.2.1.1]
        show (appendInstr (appendInstr _ cg1.cur _) cg1.cur _).length = _
        rw [appendInstr_length, appendInstr_length]
        simp only [List.length_append, List.length_cons, List.length_nil]
      have hb8T : ∃ ext,
          cg8.blocks[cg1.blocks.length]? =
            some (Block.mk "then" ([] ++ ext)) ∧
          ∀ i ∈ ext, isTerm i = false := by
        refine P8.1.2.2.2.2.1.2 cg1.blocks.length (Block.mk "then" []) ?_
        show (appendInstr (appendInstr _ cg1.cur _) cg1.cur _)[cg1.blocks.length]? = some (Block.mk "then" [])
        rw [appendInstr_untouched _ _ _ _ hcurne,
            appendInstr_untouched _ _ _ _ hcurne]
        rw [List.getElem?_append_left (by
          simp only [List.length_append, List.length_cons, List.length_nil]
          omega)]
        rw [List.getElem?_append_left (by
          simp only [List.length_append, List.length_cons, List.length_nil]
          omega)]
        rw [List.getElem?_append_right (Nat.le_refl _)]
        simp
      obtain ⟨ext, hb8T, hextNT⟩ := hb8T
      have hUn : ∀ idx, idx ≠ cg1.blocks.length →
          fn.blockIds.head? ≠ some idx →
          cg8.blocks[idx]? =
            (appendInstr (appendInstr
              (cg1.blocks ++ [Block.mk "then" []] ++ [Block.mk "else" []] ++
                [Block.mk "after_if" []]) cg1.cur
              (.icmp cg1.nreg .pne condVal (.constInt 0))) cg1.cur
              (.condbr (.reg cg1.nreg) cg1.blocks.length
                ((cg1.blocks ++ [Block.mk "then" []]).length)))[idx]? := by
        intro idx h1 h2
        exact P8.1.2.2.2.2.2 idx h1
          (by rw [← entryOf_eq_of P8.1.2.1 P8.1.2.2.1, hE8]; exact h2)
      have hb8E : cg8.blocks[cg1.blocks.length + 1]? =
          some (Block.mk "else" []) := by
        rw [hUn (cg1.blocks.length + 1) (by omega)
            (by rw [hE]; intro hx; have := Option.some.inj hx; omega)]
        rw [appendInstr_untouched _ _ _ _ hcurne1,
            appendInstr_untouched _ _ _ _ hcurne1]
        rw [List.getElem?_append_left (by
          simp only [List.length_append, List.length_cons, List.length_nil]
          omega)]
        rw [List.getElem?_append_right (by
          simp only [List.length_append, List.length_cons, List.length_nil]
          omega)]
        simp
      have hb8A : cg8.blocks[cg1.blocks.length + 2]? =
          some (Block.mk "after_if" []) := by
        rw [hUn (cg1.blocks.length + 2) (by omega)
            (by rw [hE]; intro hx; have := Option.some.inj hx; omega)]
        rw [appendInstr_untouched _ _ _ _ hcurne2,
            appendInstr_untouched _ _ _ _ hcurne2]
        rw [List.getElem?_append_right (by
          simp only [List.length_append, List.length_cons, List.length_nil]
          omega)]
        simp only [List.length_append, List.length_cons, List.length_nil]
        rw [show cg1.blocks.length + 2 -
            (cg1.blocks.length + 1 + 1) = 0 from by omega]
        rfl
      obtain ⟨bP, hbP⟩ : ∃ bP, cg1.blocks[cg1.cur]? = some bP := by
        cases hx : cg1.blocks[cg1.cur]? with
        | none =>
            rw [List.getElem?_eq_none_iff] at hx
            omega
        | some b => exact ⟨b, rfl⟩
      have hb8P : ∃ extP,
          cg8.blocks[cg1.cur]? = some (Block.mk bP.name
            (((bP.instrs ++ [.icmp cg1.nreg .pne condVal (.constInt 0)]) ++
              [.condbr (.reg cg1.nreg) cg1.blocks.length
                ((cg1.blocks ++ [Block.mk "then" []]).length)]) ++ extP)) ∧
          ∀ i ∈ extP, isTerm i = false := by
        have hstep0 : (cg1.blocks ++ [Block.mk "then" []] ++
            [Block.mk "else" []] ++ [Block.mk "after_if" []])[cg1.cur]? =
            some bP := by
          rw [List.getElem?_append_left (by
            simp only [List.length_append, List.length_cons, List.length_nil]
            omega)]
          rw [List.getElem?_append_left (by
            simp only [List.length_append, List.length_cons, List.length_nil]
            omega)]
          rw [List.getElem?_append_left hcurlt1]
          exact hbP
        have hstep1 := appendInstr_get_self
          (LInstr.icmp cg1.nreg .pne condVal (.constInt 0)) hstep0
        have hstep2 := appendInstr_get_self
          (LInstr.condbr (.reg cg1.nreg) cg1.blocks.length
            ((cg1.blocks ++ [Block.mk "then" []]).length)) hstep1
        exact P8.1.2.2.2.2.1.2 cg1.cur _ hstep2
      obtain ⟨extP, hb8P, hextPNT⟩ := hb8P
      have hA1 : (cg1.blocks ++ [Block.mk "then" []]).length =
          cg.blocks.length + 1 := by
        simp only [List.length_append, List.length_cons, List.length_nil]
        omega
      rw [hA1] at hb8P hUn
      rw [hA, hA1] at helse
      rw [hA]
      rw [hL1] at hb8T hb8E hb8A hb8P h8cur hlen8 hcurlt1
      -- the then-block terminator emit (cg9)
      have hb9T : (appendInstr cg8.blocks cg8.cur
          (.br (cg.blocks.length + 2)))[cg.blocks.length]? =
          some (Block.mk "then"
            (([] ++ ext) ++ [.br (cg.blocks.length + 2)])) := by
        rw [h8cur]
        exact appendInstr_get_self _ hb8T
      have hb9E : (appendInstr cg8.blocks cg8.cur
          (.br (cg.blocks.length + 2)))[cg.blocks.length + 1]? =
          some (Block.mk "else" []) := by
        rw [appendInstr_untouched _ _ _ _ (by omega)]
        exact hb8E
      have hb9A : (appendInstr cg8.blocks cg8.cur
          (.br (cg.blocks.length + 2)))[cg.blocks.length + 2]? =
          some (Block.mk "after_if" []) := by
        rw [appendInstr_untouched _ _ _ _ (by omega)]
        exact hb8A
      have hb9P : (appendInstr cg8.blocks cg8.cur
          (.br (cg.blocks.length + 2)))[cg1.cur]? =
          some (Block.mk bP.name
            (((bP.instrs ++ [.icmp cg1.nreg .pne condVal (.constInt 0)]) ++
              [.condbr (.reg cg1.nreg) cg.blocks.length
                (cg.blocks.length + 1)]) ++ extP)) := by
        rw [appendInstr_untouched _ _ _ _ (by omega)]
        rw [← hL1] at hb8P
        rw [hb8P, hL1]
      -- the else-branch lowering (cg11)
      have P11 := sl_stmts_preserves (hels es rfl) helse
      have h11cur : cg11.cur = cg.blocks.length + 1 := P11.1.1
      have hE11 : entryOf cg11 = fn.blockIds.head? := by
        rw [entryOf_eq_of P11.1.2.1 P11.1.2.2.1]
        exact hE8
      have hUn11 : ∀ idx, idx ≠ cg.blocks.length + 1 →
          fn.blockIds.head? ≠ some idx →
          cg11.blocks[idx]? =
            (appendInstr cg8.blocks cg8.cur
              (.br (cg.blocks.length + 2)))[idx]? := by
        intro idx h1 h2
        have := P11.1.2.2.2.2.2 idx h1
          (by rw [← entryOf_eq_of P11.1.2.1 P11.1.2.2.1, hE11]; exact h2)
        rw [this]
        rfl
      have hb11T : cg11.blocks[cg.blocks.length]? =
          some (Block.mk "then"
            (([] ++ ext) ++ [.br (cg.blocks.length + 2)])) := by
        rw [hUn11 cg.blocks.length (by omega)
            (by rw [hE]; intro hx; have := Option.some.inj hx; omega)]
        exact hb9T
      have hb11A : cg11.blocks[cg.blocks.length + 2]? =
          some (Block.mk "after_if" []) := by
        rw [hUn11 (cg.blocks.length + 2) (by omega)
            (by rw [hE]; intro hx; have := Option.some.inj hx; omega)]
        exact hb9A
      have hb11P : ∃ extQ, cg11.blocks[cg1.cur]? =
          some (Block.mk bP.name
            ((((bP.instrs ++ [.icmp cg1.nreg .pne condVal (.constInt 0)]) ++
              [.condbr (.reg cg1.nreg) cg.blocks.length
                (cg.blocks.length + 1)]) ++ extP) ++ extQ)) ∧
          ∀ i ∈ extQ, isTerm i = false := by
        refine P11.1.2.2.2.2.1.2 cg1.cur (Block.mk bP.name
          (((bP.instrs ++ [.icmp cg1.nreg .pne condVal (.constInt 0)]) ++
            [.condbr (.reg cg1.nreg) cg.blocks.length
              (cg.blocks.length + 1)]) ++ extP)) ?_
        show (appendInstr cg8.blocks cg8.cur _)[cg1.cur]? = _
        exact hb9P
      obtain ⟨extQ, hb11P, hextQNT⟩ := hb11P
      have hb11E : ∃ ext2, cg11.blocks[cg.blocks.length + 1]? =
          some (Block.mk "else" ([] ++ ext2)) ∧
          ∀ i ∈ ext2, isTerm i = false := by
        refine P11.1.2.2.2.2.1.2 (cg.blocks.length + 1) (Block.mk "else" [])
          ?_
        show (appendInstr cg8.blocks cg8.cur _)[cg.blocks.length + 1]? =
          some (Block.mk "else" [])
        exact hb9E
      obtain ⟨ext2, hb11E, hext2NT⟩ := hb11E
      have hlen11 : cg11.blocks.length = cg.blocks.length + 3 := by
        rw [P11.1.2.2.2.2.1.1]
        show (appendInstr cg8.blocks cg8.cur _).length = _
        rw [appendInstr_length, hlen8]
      -- the else-block terminator emit (cg12)
      have hb12T : (appendInstr cg11.blocks cg11.cur
          (.br (cg.blocks.length + 2)))[cg.blocks.length]? =
          some (Block.mk "then"
            (([] ++ ext) ++ [.br (cg.blocks.length + 2)])) := by
        rw [appendInstr_untouched _ _ _ _ (by omega)]
        exact hb11T
      have hb12E : (appendInstr cg11.blocks cg11.cur
          (.br (cg.blocks.length + 2)))[cg.blocks.length + 1]? =
          some (Block.mk "else"
            (([] ++ ext2) ++ [.br (cg.blocks.length + 2)])) := by
        rw [h11cur]
        exact appendInstr_get_self _ hb11E
      have hb12A : (appendInstr cg11.blocks cg11.cur
          (.br (cg.blocks.length + 2)))[cg.blocks.length + 2]? =
          some (Block.mk "after_if" []) := by
        rw [appendInstr_untouched _ _ _ _ (by omega)]
        exact hb11A
      have hb12P : (appendInstr cg11.blocks cg11.cur
          (.br (cg.blocks.length + 2)))[cg1.cur]? =
          some (Block.mk bP.name
            ((((bP.instrs ++ [.icmp cg1.nreg .pne condVal (.constInt 0)]) ++
              [.condbr (.reg cg1.nreg) cg.blocks.length
                (cg.blocks.length + 1)]) ++ extP) ++ extQ)) := by
        rw [appendInstr_untouched _ _ _ _ (by omega)]
        exact hb11P
      have hfilterext : ext.filter isTerm = [] := by
        rw [List.filter_eq_nil_iff]
        intro a ha
        simp [hextNT a ha]
      have hfilterext2 : ext2.filter isTerm = [] := by
        rw [List.filter_eq_nil_iff]
        intro a ha
        simp [hext2NT a ha]
      refine ⟨cg1.nreg, ?_, ?_, ?_, ?_, ?_, ?_, ?_, ?_, ?_, ?_⟩
      · show (appendInstr cg11.blocks cg11.cur _).length = _
        rw [appendInstr_length, hlen11]
      · simp only [blockName, position, emit, popScope]
        rw [hb12T]
        rfl
      · simp only [blockName, position, emit, popScope]
        rw [hb12E]
        rfl
      · simp only [blockName, position, emit, popScope]
        rw [hb12A]
        rfl
      · rfl
      · simp only [blockInstrs, position, emit, popScope]
        rw [hb12A]
        rfl
      · simp only [blockInstrs, position, emit, popScope]
        rw [hb12T]
        simp only [Option.map_some', Option.getD_some, List.nil_append,
          List.filter_append, hfilterext]
        rfl
      · simp only [blockInstrs, position, emit, popScope]
        rw [hb12T]
        simp only [Option.map_some', Option.getD_some, List.nil_append]
        exact List.getLast?_concat _
      · intro hnone
        exact Option.noConfusion hnone
      · intro es2 hes2
        obtain rfl : es = es2 := Option.some.inj hes2
        refine ⟨?_, ?_, ?_⟩
        · simp only [blockInstrs, position, emit, popScope]
          rw [hb12E]
          simp only [Option.map_some', Option.getD_some, List.nil_append,
            List.filter_append, hfilterext2]
          rfl
        · simp only [blockInstrs, position, emit, popScope]
          rw [hb12E]
          simp only [Option.map_some', Option.getD_some, List.nil_append]
          exact List.getLast?_concat _
        · simp only [blockInstrs, position, emit, popScope]
          rw [← hcur1, hb12P]
          simp

end LL

namespace LL

set_option maxHeartbeats 1000000 in
/-- Claim C5 (amended): lowering a `While` whose body is straight-line
creates exactly three blocks — `while_cond`, `while_body`,
`while_after`.  The condition block evaluates the condition, compares it
against 0 and conditionally branches to the body block or the after
block; the body block ends with an unconditional branch back to the
condition block (whose id differs from the body's own, so never to
itself); the current block receives a branch into the condition block,
and subsequent statements lower into the after block.  (For bodies with
nested control flow the lowering creates more blocks and the branch back
to the condition lands in the body's final block, not in
`while_body`.) -/
theorem ll_while_lowering
    (cg cg' : CG) (condition : Expr) (body : List Stmt) (fn : Fn)
    (parent : Nat)
    (hcomp : compile_stmt cg (.whileStmt condition body) = .ok cg')
    (hbody : allSL body)
    (hcur : cg.cur < cg.blocks.length)
    (hpf : cg.curFun = some parent)
    (hfn : cg.funs.get? parent = some fn)
    (hnn : fn.blockIds ≠ [])
    (hbnd : ∀ b ∈ fn.blockIds, b < cg.blocks.length) :
    ∃ r cv ce,
    cg'.blocks.length = cg.blocks.length + 3 ∧
    blockName cg' cg.blocks.length = "while_cond" ∧
    blockName cg' (cg.blocks.length + 1) = "while_body" ∧
    blockName cg' (cg.blocks.length + 2) = "while_after" ∧
    cg'.cur = cg.blocks.length + 2 ∧
    blockInstrs cg' (cg.blocks.length + 2) = [] ∧
    (∀ i ∈ ce, isTerm i = false) ∧
    blockInstrs cg' cg.blocks.length =
      (([] ++ ce) ++ [.icmp r .pne cv (.constInt 0)]) ++
        [.condbr (.reg r) (cg.blocks.length + 1) (cg.blocks.length + 2)] ∧
    (blockInstrs cg' cg.blocks.length).getLast? =
      some (.condbr (.reg r) (cg.blocks.length + 1) (cg.blocks.length + 2)) ∧
    (blockInstrs cg' cg.blocks.length).filter isTerm =
      [.condbr (.reg r) (cg.blocks.length + 1) (cg.blocks.length + 2)] ∧
    (blockInstrs cg' (cg.blocks.length + 1)).filter isTerm =
      [.br cg.blocks.length] ∧
    (blockInstrs cg' (cg.blocks.length + 1)).getLast? =
      some (.br cg.blocks.length) ∧
    cg.blocks.length ≠ cg.blocks.length + 1 ∧
    LInstr.br cg.blocks.length ∈ blockInstrs cg' cg.cur := by
  unfold compile_stmt at hcomp
  rw [hpf] at hcomp
  dsimp only [appendBlock] at hcomp
  rw [show (cg.blocks ++ [Block.mk "while_cond" []]).length =
        cg.blocks.length + 1 from by
      simp only [List.length_append, List.length_cons, List.length_nil],
      show (cg.blocks ++ [Block.mk "while_cond" []] ++
          [Block.mk "while_body" []]).length = cg.blocks.length + 2 from by
      simp only [List.length_append, List.length_cons,
        List.length_nil]] at hcomp
  obtain ⟨⟨cg6, condVal⟩, hce, h⟩ := except_bind_ok hcomp
  dsimp only at h
  obtain ⟨cg10, hbodyC, h⟩ := except_bind_ok h
  simp only [pure, Except.pure, bind, Except.bind, Except.ok.injEq] at h
  subst h
  have P6 := ll_expr_preserves hce
  have hplt : parent < cg.funs.length := (List.get?_eq_some.mp hfn).1
  have hLne : cg.blocks.length ≠ cg.cur := by omega
  have hLne1 : cg.blocks.length + 1 ≠ cg.cur := by omega
  have hLne2 : cg.blocks.length + 2 ≠ cg.cur := by omega
  obtain ⟨e, hE⟩ : ∃ e, fn.blockIds.head? = some e := by
    cases hbi : fn.blockIds with
    | nil => exact absurd hbi hnn
    | cons a t => exact ⟨a, rfl⟩
  have heL : e < cg.blocks.length := by
    apply hbnd
    cases hbi : fn.blockIds with
    | nil => exact absurd hbi hnn
    | cons a t =>
        rw [hbi] at hE
        obtain rfl : a = e := by simpa using hE
        simp [hbi]
  obtain ⟨bP, hbP⟩ : ∃ bP, cg.blocks[cg.cur]? = some bP := by
    cases hx : cg.blocks[cg.cur]? with
    | none =>
        rw [List.getElem?_eq_none_iff] at hx
        omega
    | some b => exact ⟨b, rfl⟩
  have h6cur : cg6.cur = cg.blocks.length := P6.1.1
  have h6len : cg6.blocks.length = cg.blocks.length + 3 := by
    rw [P6.1.2.2.2.2.1.1]
    show (appendInstr _ cg.cur _).length = _
    rw [appendInstr_length]
    simp only [List.length_append, List.length_cons, List.length_nil]
  have hE6 : entryOf cg6 = fn.blockIds.head? := by
    rw [entryOf_eq_of P6.1.2.1 P6.1.2.2.1]
    simp only [entryOf, position, emit, hpf, hfn,
      List.get?_eq_getElem?, List.length_set, List.getElem?_set_self, hplt]
    rw [head_append_ne_nil _ _ (by simp), head_append_ne_nil _ _ (by simp),
        head_append_ne_nil _ _ hnn]
  -- the condition block after compiling the condition
  have hC6 : ∃ ce, cg6.blocks[cg.blocks.length]? =
      some (Block.mk "while_cond" ([] ++ ce)) ∧
      ∀ i ∈ ce, isTerm i = false := by
    refine P6.1.2.2.2.2.1.2 cg.blocks.length (Block.mk "while_cond" []) ?_
    show (appendInstr _ cg.cur _)[cg.blocks.length]? =
      some (Block.mk "while_cond" [])
    rw [appendInstr_untouched _ _ _ _ hLne]
    rw [List.getElem?_append_left (by
      simp only [List.length_append, List.length_cons, List.length_nil]
      omega)]
    rw [List.getElem?_append_left (by
      simp only [List.length_append, List.length_cons, List.length_nil]
      omega)]
    rw [List.getElem?_append_right (Nat.le_refl _)]
    simp
  obtain ⟨ce, hC6, hceNT⟩ := hC6
  have hUn6 : ∀ idx, idx ≠ cg.blocks.length →
      fn.blockIds.head? ≠ some idx →
      cg6.blocks[idx]? =
        (appendInstr
          (cg.blocks ++ [Block.mk "while_cond" []] ++
            [Block.mk "while_body" []] ++ [Block.mk "while_after" []])
          cg.cur (.br cg.blocks.length))[idx]? := by
    intro idx h1 h2
    have := P6.1.2.2.2.2.2 idx h1
      (by rw [← entryOf_eq_of P6.1.2.1 P6.1.2.2.1, hE6]; exact h2)
    rw [this]
    rfl
  have hB6 : cg6.blocks[cg.blocks.length + 1]? =
      some (Block.mk "while_body" []) := by
    rw [hUn6 (cg.blocks.length + 1) (by omega)
        (by rw [hE]; intro hx; have := Option.some.inj hx; omega)]
    rw [appendInstr_untouched _ _ _ _ hLne1]
    rw [List.getElem?_append_left (by
      simp only [List.length_append, List.length_cons, List.length_nil]
      omega)]
    rw [List.getElem?_append_right (by
      simp only [List.length_append, List.length_cons, List.length_nil]
      omega)]
    simp
  have hA6 : cg6.blocks[cg.blocks.length + 2]? =
      some (Block.mk "while_after" []) := by
    rw [hUn6 (cg.blocks.length + 2) (by omega)
        (by rw [hE]; intro hx; have := Option.some.inj hx; omega)]
    rw [appendInstr_untouched _ _ _ _ hLne2]
    rw [List.getElem?_append_right (by
      simp only [List.length_append, List.length_cons, List.length_nil]
      omega)]
    simp only [List.length_append, List.length_cons, List.length_nil]
    rw [show cg.blocks.length + 2 - (cg.blocks.length + 1 + 1) = 0 from by
      omega]
    rfl
  have hP6 : ∃ extB, cg6.blocks[cg.cur]? =
      some (Block.mk bP.name
        ((bP.instrs ++ [.br cg.blocks.length]) ++ extB)) ∧
      ∀ i ∈ extB, isTerm i = false := by
    refine P6.1.2.2.2.2.1.2 cg.cur
      (Block.mk bP.name (bP.instrs ++ [.br cg.blocks.length])) ?_
    show (appendInstr _ cg.cur _)[cg.cur]? = _
    refine appendInstr_get_self _ ?_
    rw [List.getElem?_append_left (by
      simp only [List.length_append, List.length_cons, List.length_nil]
      omega)]
    rw [List.getElem?_append_left (by
      simp only [List.length_append, List.length_cons, List.length_nil]
      omega)]
    rw [List.getElem?_append_left hcur]
    exact hbP
  obtain ⟨extB, hP6, hextBNT⟩ := hP6
  -- the comparison and the conditional branch into the condition block
  have hC8 : (appendInstr (appendInstr cg6.blocks cg6.cur
      (.icmp cg6.nreg .pne condVal (.constInt 0))) cg6.cur
      (.condbr (.reg cg6.nreg) (cg.blocks.length + 1)
        (cg.blocks.length + 2)))[cg.blocks.length]? =
      some (Block.mk "while_cond"
        ((([] ++ ce) ++ [.icmp cg6.nreg .pne condVal (.constInt 0)]) ++
          [.condbr (.reg cg6.nreg) (cg.blocks.length + 1)
            (cg.blocks.length + 2)])) := by
    rw [h6cur]
    exact appendInstr_get_self _ (appendInstr_get_self _ hC6)
  have hB8 : (appendInstr (appendInstr cg6.blocks cg6.cur
      (.icmp cg6.nreg .pne condVal (.constInt 0))) cg6.cur
      (.condbr (.reg cg6.nreg) (cg.blocks.length + 1)
        (cg.blocks.length + 2)))[cg.blocks.length + 1]? =
      some (Block.mk "while_body" []) := by
    rw [h6cur]
    rw [appendInstr_untouched _ _ _ _ (by omega),
        appendInstr_untouched _ _ _ _ (by omega)]
    exact hB6
  have hA8 : (appendInstr (appendInstr cg6.blocks cg6.cur
      (.icmp cg6.nreg .pne condVal (.constInt 0))) cg6.cur
      (.condbr (.reg cg6.nreg) (cg.blocks.length + 1)
        (cg.blocks.length + 2)))[cg.blocks.length + 2]? =
      some (Block.mk "while_after" []) := by
    rw [h6cur]
    rw [appendInstr_untouched _ _ _ _ (by omega),
        appendInstr_untouched _ _ _ _ (by omega)]
    exact hA6
  have hP8 : (appendInstr (appendInstr cg6.blocks cg6.cur
      (.icmp cg6.nreg .pne condVal (.constInt 0))) cg6.cur
      (.condbr (.reg cg6.nreg) (cg.blocks.length + 1)
        (cg.blocks.length + 2)))[cg.cur]? =
      some (Block.mk bP.name
        ((bP.instrs ++ [.br cg.blocks.length]) ++ extB)) := by
    rw [h6cur]
    rw [appendInstr_untouched _ _ _ _ (by omega),
        appendInstr_untouched _ _ _ _ (by omega)]
    exact hP6
  -- the body lowering
  have P10 := sl_stmts_preserves hbody hbodyC
  have h10cur : cg10.cur = cg.blocks.length + 1 := P10.1.1
  have hE10 : entryOf cg10 = fn.blockIds.head? := by
    rw [entryOf_eq_of P10.1.2.1 P10.1.2.2.1]
    exact hE6
  have hUn10 : ∀ idx, idx ≠ cg.blocks.length + 1 →
      fn.blockIds.head? ≠ some idx →
      cg10.blocks[idx]? =
        (appendInstr (appendInstr cg6.blocks cg6.cur
          (.icmp cg6.nreg .pne condVal (.constInt 0))) cg6.cur
          (.condbr (.reg cg6.nreg) (cg.blocks.length + 1)
            (cg.blocks.length + 2)))[idx]? := by
    intro idx h1 h2
    have := P10.1.2.2.2.2.2 idx h1
      (by rw [← entryOf_eq_of P10.1.2.1 P10.1.2.2.1, hE10]; exact h2)
    rw [this]
    rfl
  have hC10 : cg10.blocks[cg.blocks.length]? =
      some (Block.mk "while_cond"
        ((([] ++ ce) ++ [.icmp cg6.nreg .pne condVal (.constInt 0)]) ++
          [.condbr (.reg cg6.nreg) (cg.blocks.length + 1)
            (cg.blocks.length + 2)])) := by
    rw [hUn10 cg.blocks.length (by omega)
        (by rw [hE]; intro hx; have := Option.some.inj hx; omega)]
    exact hC8
  have hA10 : cg10.blocks[cg.blocks.length + 2]? =
      some (Block.mk "while_after" []) := by
    rw [hUn10 (cg.blocks.length + 2) (by omega)
        (by rw [hE]; intro hx; have := Option.some.inj hx; omega)]
    exact hA8
  have hB10 : ∃ ext, cg10.blocks[cg.blocks.length + 1]? =
      some (Block.mk "while_body" ([] ++ ext)) ∧
      ∀ i ∈ ext, isTerm i = false := by
    refine P10.1.2.2.2.2.1.2 (cg.blocks.length + 1)
      (Block.mk "while_body" []) ?_
    show (appendInstr (appendInstr cg6.blocks cg6.cur _) cg6.cur _)[cg.blocks.length + 1]? = some (Block.mk "while_body" [])
    exact hB8
  obtain ⟨ext, hB10, hextNT⟩ := hB10
  have hP10 : ∃ extQ, cg10.blocks[cg.cur]? =
      some (Block.mk bP.name
        (((bP.instrs ++ [.br cg.blocks.length]) ++ extB) ++ extQ)) ∧
      ∀ i ∈ extQ, isTerm i = false := by
    refine P10.1.2.2.2.2.1.2 cg.cur
      (Block.mk bP.name ((bP.instrs ++ [.br cg.blocks.length]) ++ extB)) ?_
    show (appendInstr (appendInstr cg6.blocks cg6.cur _) cg6.cur _)[cg.cur]? = _
    exact hP8
  obtain ⟨extQ, hP10, hextQNT⟩ := hP10
  have hlen10 : cg10.blocks.length = cg.blocks.length + 3 := by
    rw [P10.1.2.2.2.2.1.1]
    show (appendInstr (appendInstr cg6.blocks cg6.cur _) cg6.cur _).length = _
    rw [appendInstr_length, appendInstr_length, h6len]
  -- the loop-back branch at the end of the body block
  have hB11 : (appendInstr cg10.blocks cg10.cur
      (.br cg.blocks.length))[cg.blocks.length + 1]? =
      some (Block.mk "while_body"
        (([] ++ ext) ++ [.br cg.blocks.length])) := by
    rw [h10cur]
    exact appendInstr_get_self _ hB10
  have hC11 : (appendInstr cg10.blocks cg10.cur
      (.br cg.blocks.length))[cg.blocks.length]? =
      some (Block.mk "while_cond"
        ((([] ++ ce) ++ [.icmp cg6.nreg .pne condVal (.constInt 0)]) ++
          [.condbr (.reg cg6.nreg) (cg.blocks.length + 1)
            (cg.blocks.length + 2)])) := by
    rw [appendInstr_untouched _ _ _ _ (by omega)]
    exact hC10
  have hA11 : (appendInstr cg10.blocks cg10.cur
      (.br cg.blocks.length))[cg.blocks.length + 2]? =
      some (Block.mk "while_after" []) := by
    rw [appendInstr_untouched _ _ _ _ (by omega)]
    exact hA10
  have hP11 : (appendInstr cg10.blocks cg10.cur
      (.br cg.blocks.length))[cg.cur]? =
      some (Block.mk bP.name
        (((bP.instrs ++ [.br cg.blocks.length]) ++ extB) ++ extQ)) := by
    rw [appendInstr_untouched _ _ _ _ (by omega)]
    exact hP10
  have hfilterce : ce.filter isTerm = [] := by
    rw [List.filter_eq_nil_iff]
    intro a ha
    simp [hceNT a ha]
  have hfilterext : ext.filter isTerm = [] := by
    rw [List.filter_eq_nil_iff]
    intro a ha
    simp [hextNT a ha]
  refine ⟨cg6.nreg, condVal, ce, ?_, ?_, ?_, ?_, ?_, ?_, hceNT, ?_, ?_, ?_,
    ?_, ?_, (by omega), ?_⟩
  · show (appendInstr cg10.blocks cg10.cur _).length = _
    rw [appendInstr_length, hlen10]
  · simp only [blockName, position, emit, popScope]
    rw [hC11]
    rfl
  · simp only [blockName, position, emit, popScope]
    rw [hB11]
    rfl
  · simp only [blockName, position, emit, popScope]
    rw [hA11]
    rfl
  · rfl
  · simp only [blockInstrs, position, emit, popScope]
    rw [hA11]
    rfl
  · simp only [blockInstrs, position, emit, popScope]
    rw [hC11]
    rfl
  · simp only [blockInstrs, position, emit, popScope]
    rw [hC11]
    simp only [Option.map_some', Option.getD_some]
    exact List.getLast?_concat _
  · simp only [blockInstrs, position, emit, popScope]
    rw [hC11]
    simp only [Option.map_some', Option.getD_some, List.nil_append,
      List.filter_append, hfilterce]
    rfl
  · simp only [blockInstrs, position, emit, popScope]
    rw [hB11]
    simp only [Option.map_some', Option.getD_some, List.nil_append,
      List.filter_append, hfilterext]
    rfl
  · simp only [blockInstrs, position, emit, popScope]
    rw [hB11]
    simp only [Option.map_some', Option.getD_some, List.nil_append]
    exact List.getLast?_concat _
  · simp only [blockInstrs, position, emit, popScope]
    rw [hP11]
    simp

end LL

namespace LL

theorem exists_decomp {α : Type} : ∀ (bs : List α) (idx : Nat) (b : α),
    bs[idx]? = some b → ∃ l1 l2, bs = l1 ++ b :: l2 ∧ l1.length = idx := by
  intro bs
  induction bs with
  | nil => intro idx b h; simp at h
  | cons a t ih =>
      intro idx b h
      cases idx with
      | zero =>
          obtain rfl : a = b := by simpa using h
          exact ⟨[], t, rfl, rfl⟩
      | succ k =>
          obtain ⟨l1, l2, hbs, hlen⟩ := ih k b (by simpa using h)
          exact ⟨a :: l1, l2, by rw [hbs]; rfl, by simp [hlen]⟩

theorem defsOf_append (l1 l2 : List Block) :
    defsOf (l1 ++ l2) = defsOf l1 ++ defsOf l2 :=
  List.flatMap_append l1 l2 _

theorem defsOf_cons (b : Block) (l : List Block) :
    defsOf (b :: l) = b.instrs ++ defsOf l := rfl

theorem defsOf_decomp (l1 : List Block) (b : Block) (l2 : List Block) :
    defsOf (l1 ++ b :: l2) = defsOf l1 ++ (b.instrs ++ defsOf l2) := by
  rw [defsOf_append, defsOf_cons]

theorem appendInstr_decomp (l1 : List Block) (b : Block) (l2 : List Block)
    (i : LInstr) :
    appendInstr (l1 ++ b :: l2) l1.length i =
      l1 ++ Block.mk b.name (b.instrs ++ [i]) :: l2 := by
  unfold appendInstr
  rw [show (l1 ++ b :: l2).get? l1.length = some b from by
    rw [List.get?_eq_getElem?]; exact get_append_at l1 b l2]
  exact set_append_at l1 b _ l2

theorem appendInstr_oob (bs : List Block) (idx : Nat) (i : LInstr)
    (h : bs.get? idx = none) : appendInstr bs idx i = bs := by
  unfold appendInstr
  rw [h]

theorem findDef_appendInstr_ne (bs : List Block) (idx : Nat) (i : LInstr)
    (r : Nat) (hne : resultReg i ≠ some r) :
    findDef (appendInstr bs idx i) r = findDef bs r := by
  cases hg : bs.get? idx with
  | none => rw [appendInstr_oob bs idx i hg]
  | some b =>
      have hb : bs[idx]? = some b := by simpa [List.get?_eq_getElem?] using hg
      obtain ⟨l1, l2, hbs, hlen⟩ := exists_decomp bs idx b hb
      subst hlen
      subst hbs
      rw [appendInstr_decomp]
      unfold findDef
      rw [defsOf_decomp, defsOf_decomp]
      dsimp only
      conv_lhs => rw [List.append_assoc, List.find?_append, List.find?_append]
      conv_rhs => rw [List.find?_append, List.find?_append]
      congr 2
      show List.find? _ (i :: defsOf l2) = _
      rw [List.find?_cons_of_neg _ (by simp [hne])]

theorem findDef_appendInstr_fresh (bs : List Block) (idx : Nat) (i : LInstr)
    (b : Block) (n : Nat) (hb : bs[idx]? = some b)
    (hres : resultReg i = some n)
    (hall : ∀ j ∈ defsOf bs, ∀ m, resultReg j = some m → m < n) :
    findDef (appendInstr bs idx i) n = some i := by
  obtain ⟨l1, l2, hbs, hlen⟩ := exists_decomp bs idx b hb
  subst hlen
  have hnotmem : ∀ j, j ∈ defsOf l1 ∨ j ∈ b.instrs →
      ¬ ((resultReg j == some n) = true) := by
    intro j hj
    have hjm : j ∈ defsOf bs := by
      rw [hbs, defsOf_append, defsOf_cons]
      rcases hj with hj | hj
      · exact List.mem_append.mpr (Or.inl hj)
      · exact List.mem_append.mpr (Or.inr (List.mem_append.mpr (Or.inl hj)))
    cases hres2 : resultReg j with
    | none => simp [hres2]
    | some m =>
        have := hall j hjm m hres2
        simp only [hres2, beq_iff_eq, Option.some.injEq]
        omega
  subst hbs
  rw [appendInstr_decomp]
  unfold findDef
  rw [defsOf_decomp]
  dsimp only
  rw [List.append_assoc]
  rw [List.find?_append]
  rw [List.find?_eq_none.mpr (fun x hx => hnotmem x (Or.inl hx))]
  rw [Option.none_or]
  rw [List.find?_append]
  rw [List.find?_eq_none.mpr (fun x hx => hnotmem x (Or.inr hx))]
  rw [Option.none_or]
  show List.find? _ (i :: defsOf l2) = some i
  rw [List.find?_cons_of_pos _ (by simp [hres])]

theorem defsOf_appendInstr_subset (bs : List Block) (idx : Nat) (i : LInstr) :
    ∀ j ∈ defsOf (appendInstr bs idx i), j ∈ defsOf bs ∨ j = i := by
  intro j hj
  cases hg : bs.get? idx with
  | none => rw [appendInstr_oob bs idx i hg] at hj; exact Or.inl hj
  | some b =>
      have hb : bs[idx]? = some b := by simpa [List.get?_eq_getElem?] using hg
      obtain ⟨l1, l2, hbs, hlen⟩ := exists_decomp bs idx b hb
      subst hlen
      subst hbs
      rw [appendInstr_decomp] at hj
      rw [defsOf_decomp] at hj
      dsimp only at hj
      rw [defsOf_decomp]
      rcases List.mem_append.mp hj with hj | hj
      · exact Or.inl (List.mem_append.mpr (Or.inl hj))
      · rcases List.mem_append.mp hj with hj | hj
        · rcases List.mem_append.mp hj with hj | hj
          · exact Or.inl (List.mem_append.mpr (Or.inr
              (List.mem_append.mpr (Or.inl hj))))
          · simp at hj
            exact Or.inr hj
        · exact Or.inl (List.mem_append.mpr (Or.inr
            (List.mem_append.mpr (Or.inr hj))))

theorem emit_value_step (cg : CG) (i : LInstr)
    (hres : resultReg i = some cg.nreg) (hRW : RW cg)
    (hcur : cg.cur < cg.blocks.length) :
    RW { emit cg i with nreg := cg.nreg + 1 } ∧
    (∀ r, r < cg.nreg →
      findDef (emit cg i).blocks r = findDef cg.blocks r) ∧
    findDef (emit cg i).blocks cg.nreg = some i := by
  obtain ⟨b, hb⟩ : ∃ b, cg.blocks[cg.cur]? = some b := by
    cases hx : cg.blocks[cg.cur]? with
    | none => rw [List.getElem?_eq_none_iff] at hx; omega
    | some b => exact ⟨b, rfl⟩
  refine ⟨?_, ?_, ?_⟩
  · intro j hj m hm
    rcases defsOf_appendInstr_subset cg.blocks cg.cur i j hj with h | h
    · have := hRW j h m hm
      show m < cg.nreg + 1
      omega
    · subst h
      rw [hres] at hm
      have := Option.some.inj hm
      show m < cg.nreg + 1
      omega
  · intro r hr
    exact findDef_appendInstr_ne cg.blocks cg.cur i r
      (by rw [hres]; intro hx; have := Option.some.inj hx; omega)
  · exact findDef_appendInstr_fresh cg.blocks cg.cur i b cg.nreg hb hres hRW

end LL

namespace LL

theorem evalVal_reg_addV (blocks : List Block) (fuel : Nat) (r r1 : Nat)
    (a b : Val) (h : findDef blocks r = some (.addV r1 a b)) :
    evalVal blocks (fuel + 1) (.reg r) = (do
      let x ← evalVal blocks fuel a
      let y ← evalVal blocks fuel b
      some (wrap32 (x + y))) := by
  simp only [evalVal]
  rw [h]

theorem evalVal_reg_subV (blocks : List Block) (fuel : Nat) (r r1 : Nat)
    (a b : Val) (h : findDef blocks r = some (.subV r1 a b)) :
    evalVal blocks (fuel + 1) (.reg r) = (do
      let x ← evalVal blocks fuel a
      let y ← evalVal blocks fuel b
      some (wrap32 (x - y))) := by
  simp only [evalVal]
  rw [h]

theorem evalVal_reg_mulV (blocks : List Block) (fuel : Nat) (r r1 : Nat)
    (a b : Val) (h : findDef blocks r = some (.mulV r1 a b)) :
    evalVal blocks (fuel + 1) (.reg r) = (do
      let x ← evalVal blocks fuel a
      let y ← evalVal blocks fuel b
      some (wrap32 (x * y))) := by
  simp only [evalVal]
  rw [h]

theorem evalVal_reg_sdiv (blocks : List Block) (fuel : Nat) (r r1 : Nat)
    (a b : Val) (h : findDef blocks r = some (.sdiv r1 a b)) :
    evalVal blocks (fuel + 1) (.reg r) = (do
      let x ← evalVal blocks fuel a
      let y ← evalVal blocks fuel b
      applyDiv x y) := by
  simp only [evalVal]
  rw [h]

theorem evalVal_reg_icmp (blocks : List Block) (fuel : Nat) (r r1 : Nat)
    (p : Pred) (a b : Val) (h : findDef blocks r = some (.icmp r1 p a b)) :
    evalVal blocks (fuel + 1) (.reg r) = (do
      let x ← evalVal blocks fuel a
      let y ← evalVal blocks fuel b
      some (if predHolds p x y then (1 : Int) else 0)) := by
  simp only [evalVal]
  rw [h]

theorem evalVal_reg_zext (blocks : List Block) (fuel : Nat) (r r1 : Nat)
    (v : Val) (h : findDef blocks r = some (.zext r1 v)) :
    evalVal blocks (fuel + 1) (.reg r) = evalVal blocks fuel v := by
  simp only [evalVal]
  rw [h]

theorem compile_expr_binary_eq (cg : CG) (l : Expr) (op : String) (r : Expr) :
    compile_expr cg (.binary l op r) = (do
      let (cg1, a) ← compile_expr cg l
      let (cg2, b) ← compile_expr cg1 r
      match op with
      | "+" =>
          let rr := cg2.nreg
          pure ({ emit cg2 (.addV rr a b) with nreg := rr + 1 }, .reg rr)
      | "-" =>
          let rr := cg2.nreg
          pure ({ emit cg2 (.subV rr a b) with nreg := rr + 1 }, .reg rr)
      | "*" =>
          let rr := cg2.nreg
          pure ({ emit cg2 (.mulV rr a b) with nreg := rr + 1 }, .reg rr)
      | "/" =>
          let rr := cg2.nreg
          pure ({ emit cg2 (.sdiv rr a b) with nreg := rr + 1 }, .reg rr)
      | ">" => pure (buildCompare cg2 a b .psgt)
      | "<" => pure (buildCompare cg2 a b .pslt)
      | "==" => pure (buildCompare cg2 a b .peq)
      | "!=" => pure (buildCompare cg2 a b .pne)
      | _ => throw (.unknownOp op)) := by
  rfl

theorem emit_cur (cg : CG) (i : LInstr) : (emit cg i).cur = cg.cur := rfl

theorem emit_blocks_length (cg : CG) (i : LInstr) :
    (emit cg i).blocks.length = cg.blocks.length := by
  show (appendInstr cg.blocks cg.cur i).length = cg.blocks.length
  exact appendInstr_length cg.blocks cg.cur i

theorem buildCompare_step (cg2 : CG) (va vb : Val) (p : Pred)
    (hRW : RW cg2) (hcur : cg2.cur < cg2.blocks.length) :
    ∃ cg4, buildCompare cg2 va vb p = (cg4, .reg (cg2.nreg + 1)) ∧
      RW cg4 ∧ cg4.cur = cg2.cur ∧
      cg4.blocks.length = cg2.blocks.length ∧ cg4.nreg = cg2.nreg + 2 ∧
      (∀ r, r < cg2.nreg → findDef cg4.blocks r = findDef cg2.blocks r) ∧
      (∀ bs2,
        (∀ r, r < cg2.nreg + 2 → findDef bs2 r = findDef cg4.blocks r) →
        ∀ fuel, evalVal bs2 (fuel + 2) (.reg (cg2.nreg + 1)) = (do
          let x ← evalVal bs2 fuel va
          let y ← evalVal bs2 fuel vb
          some (if predHolds p x y then (1 : Int) else 0))) := by
  obtain ⟨hRW3, hst3, hfd3⟩ :=
    emit_value_step cg2 (.icmp cg2.nreg p va vb) rfl hRW hcur
  have hcur3 : cg2.cur <
      (appendInstr cg2.blocks cg2.cur (.icmp cg2.nreg p va vb)).length := by
    rw [appendInstr_length]
    exact hcur
  obtain ⟨hRW4, hst4, hfd4⟩ :=
    emit_value_step
      (CG.mk (appendInstr cg2.blocks cg2.cur (.icmp cg2.nreg p va vb))
        cg2.funs cg2.curFun cg2.cur cg2.varsStack (cg2.nreg + 1))
      (.zext (cg2.nreg + 1) (.reg cg2.nreg)) rfl hRW3 hcur3
  refine ⟨CG.mk
      (appendInstr
        (appendInstr cg2.blocks cg2.cur (.icmp cg2.nreg p va vb))
        cg2.cur (.zext (cg2.nreg + 1) (.reg cg2.nreg)))
      cg2.funs cg2.curFun cg2.cur cg2.varsStack (cg2.nreg + 2),
    rfl, hRW4, rfl, ?_, rfl, ?_, ?_⟩
  · show (appendInstr _ _ _).length = cg2.blocks.length
    rw [appendInstr_length, appendInstr_length]
  · intro r hr
    exact (hst4 r (Nat.lt_succ_of_lt hr)).trans (hst3 r hr)
  · intro bs2 hstb fuel
    have hz : findDef bs2 (cg2.nreg + 1) =
        some (.zext (cg2.nreg + 1) (.reg cg2.nreg)) := by
      rw [hstb (cg2.nreg + 1) (Nat.lt_succ_self _)]
      exact hfd4
    have hi : findDef bs2 cg2.nreg =
        some (.icmp cg2.nreg p va vb) := by
      rw [hstb cg2.nreg (Nat.lt_succ_of_lt (Nat.lt_succ_self _))]
      exact (hst4 cg2.nreg (Nat.lt_succ_self _)).trans hfd3
    rw [show fuel + 2 = (fuel + 1) + 1 from rfl]
    rw [evalVal_reg_zext bs2 (fuel + 1) (cg2.nreg + 1) (cg2.nreg + 1)
      (.reg cg2.nreg) hz]
    exact evalVal_reg_icmp bs2 fuel cg2.nreg cg2.nreg p va vb hi

end LL

namespace LL

theorem ll_aexp_correct : ∀ a : AExp, a.wf → ∀ cg : CG, RW cg →
    cg.cur < cg.blocks.length →
    ∃ cg' v, compile_expr cg a.toLL = .ok (cg', v) ∧ RW cg' ∧
      cg'.cur = cg.cur ∧ cg'.blocks.length = cg.blocks.length ∧
      cg.nreg ≤ cg'.nreg ∧
      (∀ r, r < cg.nreg → findDef cg'.blocks r = findDef cg.blocks r) ∧
      (∀ bs2,
        (∀ r, r < cg'.nreg → findDef bs2 r = findDef cg'.blocks r) →
        ∀ fuel, a.cost ≤ fuel → evalVal bs2 fuel v = a.evalA) := by
  intro a
  induction a with
  | num n =>
      intro _ cg hRW hcur
      refine ⟨cg, .constInt n, rfl, hRW, rfl, rfl, Nat.le_refl _,
        fun r _ => rfl, ?_⟩
      intro bs2 _ fuel _
      cases fuel <;> rfl
  | bin l op r ihl ihr =>
      intro hwf cg hRW hcur
      obtain ⟨hop, hwl, hwr⟩ := hwf
      obtain ⟨cg1, va, hcl, hRW1, hcur1, hlen1, hn1, hst1, hev1⟩ :=
        ihl hwl cg hRW hcur
      obtain ⟨cg2, vb, hcr, hRW2, hcur2, hlen2, hn2, hst2, hev2⟩ :=
        ihr hwr cg1 hRW1 (by rw [hcur1, hlen1]; exact hcur)
      have hc2 : cg2.cur < cg2.blocks.length := by
        rw [hcur2, hlen2, hcur1, hlen1]
        exact hcur
      simp only [List.mem_cons, List.not_mem_nil, or_false] at hop
      rcases hop with rfl | rfl | rfl | rfl | rfl | rfl | rfl | rfl
      · have h1 : compile_expr cg (AExp.bin l "+" r).toLL =
            (do
              let (cg2', b) ← compile_expr cg1 r.toLL
              pure ({ emit cg2' (.addV cg2'.nreg va b) with
                  nreg := cg2'.nreg + 1 }, .reg cg2'.nreg)) := by
          show compile_expr cg (.binary l.toLL "+" r.toLL) = _
          rw [compile_expr_binary_eq, hcl]
          rfl
        have hcomp : compile_expr cg (AExp.bin l "+" r).toLL =
            .ok ({ emit cg2 (.addV cg2.nreg va vb) with
                nreg := cg2.nreg + 1 }, .reg cg2.nreg) := by
          rw [h1, hcr]
          rfl
        obtain ⟨hRW3, hst3, hfd3⟩ :=
          emit_value_step cg2 (.addV cg2.nreg va vb) rfl hRW2 hc2
        refine ⟨_, _, hcomp, hRW3, ?_, ?_, ?_, ?_, ?_⟩
        · show (emit cg2 (.addV cg2.nreg va vb)).cur = cg.cur
          rw [emit_cur, hcur2, hcur1]
        · show (emit cg2 (.addV cg2.nreg va vb)).blocks.length =
            cg.blocks.length
          rw [emit_blocks_length, hlen2, hlen1]
        · show cg.nreg ≤ cg2.nreg + 1
          omega
        · intro s hs
          exact (hst3 s (by omega)).trans
            ((hst2 s (by omega)).trans (hst1 s hs))
        · intro bs2 hstb fuel hfuel
          simp only [AExp.cost] at hfuel
          have hml := Nat.le_max_left l.cost r.cost
          have hmr := Nat.le_max_right l.cost r.cost
          obtain ⟨f, rfl⟩ : ∃ f, fuel = f + 1 := ⟨fuel - 1, by omega⟩
          have hfd : findDef bs2 cg2.nreg =
              some (.addV cg2.nreg va vb) := by
            rw [hstb cg2.nreg (Nat.lt_succ_self _)]
            exact hfd3
          rw [evalVal_reg_addV bs2 f cg2.nreg cg2.nreg va vb hfd]
          have hA : evalVal bs2 f va = l.evalA := by
            refine hev1 bs2 ?_ f (by omega)
            intro s hs
            refine (hstb s (Nat.lt_succ_of_lt (by omega))).trans ?_
            exact (hst3 s (by omega)).trans (hst2 s hs)
          have hB : evalVal bs2 f vb = r.evalA := by
            refine hev2 bs2 ?_ f (by omega)
            intro s hs
            exact (hstb s (Nat.lt_succ_of_lt hs)).trans (hst3 s hs)
          rw [hA, hB]
          show _ = (AExp.bin l "+" r).evalA
          simp only [AExp.evalA]
          cases hx : l.evalA with
          | none => simp
          | some x =>
              cases hy : r.evalA with
              | none => simp
              | some y => simp [applyOp]
      · have h1 : compile_expr cg (AExp.bin l "-" r).toLL =
            (do
              let (cg2', b) ← compile_expr cg1 r.toLL
              pure ({ emit cg2' (.subV cg2'.nreg va b) with
                  nreg := cg2'.nreg + 1 }, .reg cg2'.nreg)) := by
          show compile_expr cg (.binary l.toLL "-" r.toLL) = _
          rw [compile_expr_binary_eq, hcl]
          rfl
        have hcomp : compile_expr cg (AExp.bin l "-" r).toLL =
            .ok ({ emit cg2 (.subV cg2.nreg va vb) with
                nreg := cg2.nreg + 1 }, .reg cg2.nreg) := by
          rw [h1, hcr]
          rfl
        obtain ⟨hRW3, hst3, hfd3⟩ :=
          emit_value_step cg2 (.subV cg2.nreg va vb) rfl hRW2 hc2
        refine ⟨_, _, hcomp, hRW3, ?_, ?_, ?_, ?_, ?_⟩
        · show (emit cg2 (.subV cg2.nreg va vb)).cur = cg.cur
          rw [emit_cur, hcur2, hcur1]
        · show (emit cg2 (.subV cg2.nreg va vb)).blocks.length =
            cg.blocks.length
          rw [emit_blocks_length, hlen2, hlen1]
        · show cg.nreg ≤ cg2.nreg + 1
          omega
        · intro s hs
          exact (hst3 s (by omega)).trans
            ((hst2 s (by omega)).trans (hst1 s hs))
        · intro bs2 hstb fuel hfuel
          simp only [AExp.cost] at hfuel
          have hml := Nat.le_max_left l.cost r.cost
          have hmr := Nat.le_max_right l.cost r.cost
          obtain ⟨f, rfl⟩ : ∃ f, fuel = f + 1 := ⟨fuel - 1, by omega⟩
          have hfd : findDef bs2 cg2.nreg =
              some (.subV cg2.nreg va vb) := by
            rw [hstb cg2.nreg (Nat.lt_succ_self _)]
            exact hfd3
          rw [evalVal_reg_subV bs2 f cg2.nreg cg2.nreg va vb hfd]
          have hA : evalVal bs2 f va = l.evalA := by
            refine hev1 bs2 ?_ f (by omega)
            intro s hs
            refine (hstb s (Nat.lt_succ_of_lt (by omega))).trans ?_
            exact (hst3 s (by omega)).trans (hst2 s hs)
          have hB : evalVal bs2 f vb = r.evalA := by
            refine hev2 bs2 ?_ f (by omega)
            intro s hs
            exact (hstb s (Nat.lt_succ_of_lt hs)).trans (hst3 s hs)
          rw [hA, hB]
          show _ = (AExp.bin l "-" r).evalA
          simp only [AExp.evalA]
          cases hx : l.evalA with
          | none => simp
          | some x =>
              cases hy : r.evalA with
              | none => simp
              | some y => simp [applyOp]
      · have h1 : compile_expr cg (AExp.bin l "*" r).toLL =
            (do
              let (cg2', b) ← compile_expr cg1 r.toLL
              pure ({ emit cg2' (.mulV cg2'.nreg va b) with
                  nreg := cg2'.nreg + 1 }, .reg cg2'.nreg)) := by
          show compile_expr cg (.binary l.toLL "*" r.toLL) = _
          rw [compile_expr_binary_eq, hcl]
          rfl
        have hcomp : compile_expr cg (AExp.bin l "*" r).toLL =
            .ok ({ emit cg2 (.mulV cg2.nreg va vb) with
                nreg := cg2.nreg + 1 }, .reg cg2.nreg) := by
          rw [h1, hcr]
          rfl
        obtain ⟨hRW3, hst3, hfd3⟩ :=
          emit_value_step cg2 (.mulV cg2.nreg va vb) rfl hRW2 hc2
        refine ⟨_, _, hcomp, hRW3, ?_, ?_, ?_, ?_, ?_⟩
        · show (emit cg2 (.mulV cg2.nreg va vb)).cur = cg.cur
          rw [emit_cur, hcur2, hcur1]
        · show (emit cg2 (.mulV cg2.nreg va vb)).blocks.length =
            cg.blocks.length
          rw [emit_blocks_length, hlen2, hlen1]
        · show cg.nreg ≤ cg2.nreg + 1
          omega
        · intro s hs
          exact (hst3 s (by omega)).trans
            ((hst2 s (by omega)).trans (hst1 s hs))
        · intro bs2 hstb fuel hfuel
          simp only [AExp.cost] at hfuel
          have hml := Nat.le_max_left l.cost r.cost
          have hmr := Nat.le_max_right l.cost r.cost
          obtain ⟨f, rfl⟩ : ∃ f, fuel = f + 1 := ⟨fuel - 1, by omega⟩
          have hfd : findDef bs2 cg2.nreg =
              some (.mulV cg2.nreg va vb) := by
            rw [hstb cg2.nreg (Nat.lt_succ_self _)]
            exact hfd3
          rw [evalVal_reg_mulV bs2 f cg2.nreg cg2.nreg va vb hfd]
          have hA : evalVal bs2 f va = l.evalA := by
            refine hev1 bs2 ?_ f (by omega)
            intro s hs
            refine (hstb s (Nat.lt_succ_of_lt (by omega))).trans ?_
            exact (hst3 s (by omega)).trans (hst2 s hs)
          have hB : evalVal bs2 f vb = r.evalA := by
            refine hev2 bs2 ?_ f (by omega)
            intro s hs
            exact (hstb s (Nat.lt_succ_of_lt hs)).trans (hst3 s hs)
          rw [hA, hB]
          show _ = (AExp.bin l "*" r).evalA
          simp only [AExp.evalA]
          cases hx : l.evalA with
          | none => simp
          | some x =>
              cases hy : r.evalA with
              | none => simp
              | some y => simp [applyOp]
      · have h1 : compile_expr cg (AExp.bin l "/" r).toLL =
            (do
              let (cg2', b) ← compile_expr cg1 r.toLL
              pure ({ emit cg2' (.sdiv cg2'.nreg va b) with
                  nreg := cg2'.nreg + 1 }, .reg cg2'.nreg)) := by
          show compile_expr cg (.binary l.toLL "/" r.toLL) = _
          rw [compile_expr_binary_eq, hcl]
          rfl
        have hcomp : compile_expr cg (AExp.bin l "/" r).toLL =
            .ok ({ emit cg2 (.sdiv cg2.nreg va vb) with
                nreg := cg2.nreg + 1 }, .reg cg2.nreg) := by
          rw [h1, hcr]
          rfl
        obtain ⟨hRW3, hst3, hfd3⟩ :=
          emit_value_step cg2 (.sdiv cg2.nreg va vb) rfl hRW2 hc2
        refine ⟨_, _, hcomp, hRW3, ?_, ?_, ?_, ?_, ?_⟩
        · show (emit cg2 (.sdiv cg2.nreg va vb)).cur = cg.cur
          rw [emit_cur, hcur2, hcur1]
        · show (emit cg2 (.sdiv cg2.nreg va vb)).blocks.length =
            cg.blocks.length
          rw [emit_blocks_length, hlen2, hlen1]
        · show cg.nreg ≤ cg2.nreg + 1
          omega
        · intro s hs
          exact (hst3 s (by omega)).trans
            ((hst2 s (by omega)).trans (hst1 s hs))
        · intro bs2 hstb fuel hfuel
          simp only [AExp.cost] at hfuel
          have hml := Nat.le_max_left l.cost r.cost
          have hmr := Nat.le_max_right l.cost r.cost
          obtain ⟨f, rfl⟩ : ∃ f, fuel = f + 1 := ⟨fuel - 1, by omega⟩
          have hfd : findDef bs2 cg2.nreg =
              some (.sdiv cg2.nreg va vb) := by
            rw [hstb cg2.nreg (Nat.lt_succ_self _)]
            exact hfd3
          rw [evalVal_reg_sdiv bs2 f cg2.nreg cg2.nreg va vb hfd]
          have hA : evalVal bs2 f va = l.evalA := by
            refine hev1 bs2 ?_ f (by omega)
            intro s hs
            refine (hstb s (Nat.lt_succ_of_lt (by omega))).trans ?_
            exact (hst3 s (by omega)).trans (hst2 s hs)
          have hB : evalVal bs2 f vb = r.evalA := by
            refine hev2 bs2 ?_ f (by omega)
            intro s hs
            exact (hstb s (Nat.lt_succ_of_lt hs)).trans (hst3 s hs)
          rw [hA, hB]
          show _ = (AExp.bin l "/" r).evalA
          simp only [AExp.evalA]
          cases hx : l.evalA with
          | none => simp
          | some x =>
              cases hy : r.evalA with
              | none => simp
              | some y => simp [applyOp]
      · have h1 : compile_expr cg (AExp.bin l ">" r).toLL =
            (do
              let (cg2', b) ← compile_expr cg1 r.toLL
              pure (buildCompare cg2' va b .psgt)) := by
          show compile_expr cg (.binary l.toLL ">" r.toLL) = _
          rw [compile_expr_binary_eq, hcl]
          rfl
        obtain ⟨cg4, hbc, hRW4, hcur4, hlen4, hnreg4, hst4, hev4⟩ :=
          buildCompare_step cg2 va vb .psgt hRW2 hc2
        have hcomp : compile_expr cg (AExp.bin l ">" r).toLL =
            .ok (cg4, .reg (cg2.nreg + 1)) := by
          rw [h1, hcr]
          show Except.ok (buildCompare cg2 va vb .psgt) = _
          rw [hbc]
        refine ⟨cg4, .reg (cg2.nreg + 1), hcomp, hRW4, ?_, ?_, ?_, ?_, ?_⟩
        · rw [hcur4, hcur2, hcur1]
        · rw [hlen4, hlen2, hlen1]
        · omega
        · intro s hs
          exact (hst4 s (by omega)).trans
            ((hst2 s (by omega)).trans (hst1 s hs))
        · intro bs2 hstb fuel hfuel
          simp only [AExp.cost] at hfuel
          have hml := Nat.le_max_left l.cost r.cost
          have hmr := Nat.le_max_right l.cost r.cost
          obtain ⟨f, rfl⟩ : ∃ f, fuel = f + 2 := ⟨fuel - 2, by omega⟩
          have hstb2 : ∀ s, s < cg2.nreg + 2 →
              findDef bs2 s = findDef cg4.blocks s := by
            intro s hs
            exact hstb s (by omega)
          rw [hev4 bs2 hstb2 f]
          have hA : evalVal bs2 f va = l.evalA := by
            refine hev1 bs2 ?_ f (by omega)
            intro s hs
            refine (hstb2 s (by omega)).trans ?_
            exact (hst4 s (by omega)).trans (hst2 s hs)
          have hB : evalVal bs2 f vb = r.evalA := by
            refine hev2 bs2 ?_ f (by omega)
            intro s hs
            exact (hstb2 s (by omega)).trans (hst4 s hs)
          rw [hA, hB]
          show _ = (AExp.bin l ">" r).evalA
          simp only [AExp.evalA]
          cases hx : l.evalA with
          | none => simp
          | some x =>
              cases hy : r.evalA with
              | none => simp
              | some y => simp [applyOp, predHolds]
      · have h1 : compile_expr cg (AExp.bin l "<" r).toLL =
            (do
              let (cg2', b) ← compile_expr cg1 r.toLL
              pure (buildCompare cg2' va b .pslt)) := by
          show compile_expr cg (.binary l.toLL "<" r.toLL) = _
          rw [compile_expr_binary_eq, hcl]
          rfl
        obtain ⟨cg4, hbc, hRW4, hcur4, hlen4, hnreg4, hst4, hev4⟩ :=
          buildCompare_step cg2 va vb .pslt hRW2 hc2
        have hcomp : compile_expr cg (AExp.bin l "<" r).toLL =
            .ok (cg4, .reg (cg2.nreg + 1)) := by
          rw [h1, hcr]
          show Except.ok (buildCompare cg2 va vb .pslt) = _
          rw [hbc]
        refine ⟨cg4, .reg (cg2.nreg + 1), hcomp, hRW4, ?_, ?_, ?_, ?_, ?_⟩
        · rw [hcur4, hcur2, hcur1]
        · rw [hlen4, hlen2, hlen1]
        · omega
        · intro s hs
          exact (hst4 s (by omega)).trans
            ((hst2 s (by omega)).trans (hst1 s hs))
        · intro bs2 hstb fuel hfuel
          simp only [AExp.cost] at hfuel
          have hml := Nat.le_max_left l.cost r.cost
          have hmr := Nat.le_max_right l.cost r.cost
          obtain ⟨f, rfl⟩ : ∃ f, fuel = f + 2 := ⟨fuel - 2, by omega⟩
          have hstb2 : ∀ s, s < cg2.nreg + 2 →
              findDef bs2 s = findDef cg4.blocks s := by
            intro s hs
            exact hstb s (by omega)
          rw [hev4 bs2 hstb2 f]
          have hA : evalVal bs2 f va = l.evalA := by
            refine hev1 bs2 ?_ f (by omega)
            intro s hs
            refine (hstb2 s (by omega)).trans ?_
            exact (hst4 s (by omega)).trans (hst2 s hs)
          have hB : evalVal bs2 f vb = r.evalA := by
            refine hev2 bs2 ?_ f (by omega)
            intro s hs
            exact (hstb2 s (by omega)).trans (hst4 s hs)
          rw [hA, hB]
          show _ = (AExp.bin l "<" r).evalA
          simp only [AExp.evalA]
          cases hx : l.evalA with
          | none => simp
          | some x =>
              cases hy : r.evalA with
              | none => simp
              | some y => simp [applyOp, predHolds]
      · have h1 : compile_expr cg (AExp.bin l "==" r).toLL =
            (do
              let (cg2', b) ← compile_expr cg1 r.toLL
              pure (buildCompare cg2' va b .peq)) := by
          show compile_expr cg (.binary l.toLL "==" r.toLL) = _
          rw [compile_expr_binary_eq, hcl]
          rfl
        obtain ⟨cg4, hbc, hRW4, hcur4, hlen4, hnreg4, hst4, hev4⟩ :=
          buildCompare_step cg2 va vb .peq hRW2 hc2
        have hcomp : compile_expr cg (AExp.bin l "==" r).toLL =
            .ok (cg4, .reg (cg2.nreg + 1)) := by
          rw [h1, hcr]
          show Except.ok (buildCompare cg2 va vb .peq) = _
          rw [hbc]
        refine ⟨cg4, .reg (cg2.nreg + 1), hcomp, hRW4, ?_, ?_, ?_, ?_, ?_⟩
        · rw [hcur4, hcur2, hcur1]
        · rw [hlen4, hlen2, hlen1]
        · omega
        · intro s hs
          exact (hst4 s (by omega)).trans
            ((hst2 s (by omega)).trans (hst1 s hs))
        · intro bs2 hstb fuel hfuel
          simp only [AExp.cost] at hfuel
          have hml := Nat.le_max_left l.cost r.cost
          have hmr := Nat.le_max_right l.cost r.cost
          obtain ⟨f, rfl⟩ : ∃ f, fuel = f + 2 := ⟨fuel - 2, by omega⟩
          have hstb2 : ∀ s, s < cg2.nreg + 2 →
              findDef bs2 s = findDef cg4.blocks s := by
            intro s hs
            exact hstb s (by omega)
          rw [hev4 bs2 hstb2 f]
          have hA : evalVal bs2 f va = l.evalA := by
            refine hev1 bs2 ?_ f (by omega)
            intro s hs
            refine (hstb2 s (by omega)).trans ?_
            exact (hst4 s (by omega)).trans (hst2 s hs)
          have hB : evalVal bs2 f vb = r.evalA := by
            refine hev2 bs2 ?_ f (by omega)
            intro s hs
            exact (hstb2 s (by omega)).trans (hst4 s hs)
          rw [hA, hB]
          show _ = (AExp.bin l "==" r).evalA
          simp only [AExp.evalA]
          cases hx : l.evalA with
          | none => simp
          | some x =>
              cases hy : r.evalA with
              | none => simp
              | some y => simp [applyOp, predHolds]
      · have h1 : compile_expr cg (AExp.bin l "!=" r).toLL =
            (do
              let (cg2', b) ← compile_expr cg1 r.toLL
              pure (buildCompare cg2' va b .pne)) := by
          show compile_expr cg (.binary l.toLL "!=" r.toLL) = _
          rw [compile_expr_binary_eq, hcl]
          rfl
        obtain ⟨cg4, hbc, hRW4, hcur4, hlen4, hnreg4, hst4, hev4⟩ :=
          buildCompare_step cg2 va vb .pne hRW2 hc2
        have hcomp : compile_expr cg (AExp.bin l "!=" r).toLL =
            .ok (cg4, .reg (cg2.nreg + 1)) := by
          rw [h1, hcr]
          show Except.ok (buildCompare cg2 va vb .pne) = _
          rw [hbc]
        refine ⟨cg4, .reg (cg2.nreg + 1), hcomp, hRW4, ?_, ?_, ?_, ?_, ?_⟩
        · rw [hcur4, hcur2, hcur1]
        · rw [hlen4, hlen2, hlen1]
        · omega
        · intro s hs
          exact (hst4 s (by omega)).trans
            ((hst2 s (by omega)).trans (hst1 s hs))
        · intro bs2 hstb fuel hfuel
          simp only [AExp.cost] at hfuel
          have hml := Nat.le_max_left l.cost r.cost
          have hmr := Nat.le_max_right l.cost r.cost
          obtain ⟨f, rfl⟩ : ∃ f, fuel = f + 2 := ⟨fuel - 2, by omega⟩
          have hstb2 : ∀ s, s < cg2.nreg + 2 →
              findDef bs2 s = findDef cg4.blocks s := by
            intro s hs
            exact hstb s (by omega)
          rw [hev4 bs2 hstb2 f]
          have hA : evalVal bs2 f va = l.evalA := by
            refine hev1 bs2 ?_ f (by omega)
            intro s hs
            refine (hstb2 s (by omega)).trans ?_
            exact (hst4 s (by omega)).trans (hst2 s hs)
          have hB : evalVal bs2 f vb = r.evalA := by
            refine hev2 bs2 ?_ f (by omega)
            intro s hs
            exact (hstb2 s (by omega)).trans (hst4 s hs)
          rw [hA, hB]
          show _ = (AExp.bin l "!=" r).evalA
          simp only [AExp.evalA]
          cases hx : l.evalA with
          | none => simp
          | some x =>
              cases hy : r.evalA with
              | none => simp
              | some y => simp [applyOp, predHolds]

end LL

/-- Claim C1: compiling `let x = 5; if x > 3 { x = x + 1; }` with the
bytecode emitter and running the VM to `Halt` ends with the variable
store mapping `x` to 6. -/
theorem c1_let_if_x_ends_at_six :
    ∃ code s, BC.compile_program prog1 = some code ∧
      BC.run 20 (BC.initVM code) = .halted s ∧
      BC.lookupVar s.vars "x" = some 6 :=
  ⟨_, _, rfl, rfl, rfl⟩

/-- Claim C2: compiling an `IfStmt` emits the condition code, then a
`JumpIfFalse` whose patched target is the buffer length right after the
then-block is compiled — the index immediately after the then-block's
last instruction — and then the then-block.  When the condition
evaluates to 0 the VM reaches the jump with 0 on top of the stack, and a
single `step` from the jump lands directly on that target, so every
then-block instruction is skipped. -/
theorem c2_if_patch_skips_then (cond : BC.Expr) (tb : List BC.Stmt)
    (pre out : List BC.Instr)
    (hcomp : BC.compile_stmt pre (.ifStmt cond tb) = some out) :
    ∃ f1 tf, BC.exprFrag cond = some f1 ∧
      BC.stmtsFrag (pre.length + f1.length + 1) tb = some tf ∧
      out = pre ++ f1 ++ BC.Instr.jumpIfFalse out.length :: tf ∧
      out.length = pre.length + f1.length + 1 + tf.length ∧
      ∀ (suffix : List BC.Instr) (st : List Int)
        (vars : List (String × Int)) (C : List BC.Instr),
        C = out ++ suffix →
        (BC.evalB vars cond = some 0 →
          ∃ n, BC.nsteps n ⟨pre.length, st, C, vars⟩ =
            .cont ⟨pre.length + f1.length, 0 :: st, C, vars⟩) ∧
        BC.step ⟨pre.length + f1.length, 0 :: st, C, vars⟩ =
          .cont ⟨out.length, st, C, vars⟩ := by
  rw [BC.compile_stmt_eq] at hcomp
  obtain ⟨frag, hfrag, rfl⟩ := Option.map_eq_some'.mp hcomp
  unfold BC.stmtFrag at hfrag
  obtain ⟨f1, hf1, hfrag⟩ := Option.bind_eq_some.mp hfrag
  obtain ⟨tf, htf, hfrag⟩ := Option.bind_eq_some.mp hfrag
  obtain rfl : f1 ++ BC.Instr.jumpIfFalse
      (pre.length + f1.length + 1 + tf.length) :: tf = frag := by
    simpa using hfrag
  have hlen : (pre ++ (f1 ++ BC.Instr.jumpIfFalse
      (pre.length + f1.length + 1 + tf.length) :: tf)).length =
      pre.length + f1.length + 1 + tf.length := by
    simp only [List.length_append, List.length_cons]
    omega
  refine ⟨f1, tf, hf1, htf, ?_, ?_, ?_⟩
  · rw [hlen]
    simp [List.append_assoc]
  · exact hlen
  · intro suffix st vars C hC
    constructor
    · intro hev
      have he := (BC.exec_expr cond f1 hf1 pre
        (BC.Instr.jumpIfFalse (pre.length + f1.length + 1 + tf.length) ::
          (tf ++ suffix)) st vars C (by rw [hC]; simp)).1 0 hev
      exact he
    · have hget : C[pre.length + f1.length]? =
          some (BC.Instr.jumpIfFalse
            (pre.length + f1.length + 1 + tf.length)) := by
        rw [hC, show pre ++ (f1 ++ BC.Instr.jumpIfFalse
            (pre.length + f1.length + 1 + tf.length) :: tf) ++ suffix =
          (pre ++ f1) ++ BC.Instr.jumpIfFalse
            (pre.length + f1.length + 1 + tf.length) ::
            (tf ++ suffix) from by simp]
        rw [show pre.length + f1.length = (pre ++ f1).length from by
          simp [List.length_append]]
        exact get_append_at (pre ++ f1) _ (tf ++ suffix)
      rw [hlen]
      simp [BC.step, hget]

/-- Witness for C2 at the concrete statement `if (0) { y = 1; }`. -/
theorem c2_witness :
    ∃ f1 tf, BC.exprFrag (.number 0) = some f1 ∧
      BC.stmtsFrag (([] : List BC.Instr).length + f1.length + 1)
        [.assignment "y" (.number 1)] = some tf ∧
      outIf0 = [] ++ f1 ++ BC.Instr.jumpIfFalse outIf0.length :: tf ∧
      outIf0.length = ([] : List BC.Instr).length + f1.length + 1 +
        tf.length ∧
      ∀ (suffix : List BC.Instr) (st : List Int)
        (vars : List (String × Int)) (C : List BC.Instr),
        C = outIf0 ++ suffix →
        (BC.evalB vars (.number 0) = some 0 →
          ∃ n, BC.nsteps n ⟨([] : List BC.Instr).length, st, C, vars⟩ =
            .cont ⟨([] : List BC.Instr).length + f1.length, 0 :: st, C,
              vars⟩) ∧
        BC.step ⟨([] : List BC.Instr).length + f1.length, 0 :: st, C,
          vars⟩ = .cont ⟨outIf0.length, st, C, vars⟩ :=
  c2_if_patch_skips_then (.number 0) [.assignment "y" (.number 1)] []
    outIf0 rfl

/-- Claim C3: a binary or comparison instruction on a stack holding at
least two values pops `b` (top) then `a` (second) and pushes the single
result of `a OP b`, comparisons pushing 1 for true and 0 for false; and
on the shared pure-arithmetic fragment the two backends agree: the
bytecode for an expression executes to push exactly the expression's
common value, and the native lowering emits instructions whose result
value evaluates to that same common value. -/
theorem c3_binop_backend_agreement :
    (∀ (op : String) (i : BC.Instr), BC.opInstr op = some i →
      ∀ (code : List BC.Instr) (ip : Nat) (st : List Int)
        (vars : List (String × Int)) (a b : Int),
        code[ip]? = some i →
        BC.step ⟨ip, b :: a :: st, code, vars⟩ =
          match applyOp op a b with
          | some v => .cont ⟨ip + 1, v :: st, code, vars⟩
          | none => .fault .arithFault vars) ∧
    (∀ a : AExp, a.wf →
      (∃ frag, BC.exprFrag a.toBC = some frag ∧
        ∀ (st : List Int) (vars : List (String × Int))
          (suffix : List BC.Instr) (v : Int), a.evalA = some v →
          ∃ n, BC.nsteps n ⟨0, st, frag ++ suffix, vars⟩ =
            .cont ⟨frag.length, v :: st, frag ++ suffix, vars⟩) ∧
      (∀ cg : LL.CG, LL.RW cg → cg.cur < cg.blocks.length →
        ∃ cg' v, LL.compile_expr cg a.toLL = .ok (cg', v) ∧
          ∀ fuel, a.cost ≤ fuel →
            LL.evalVal cg'.blocks fuel v = a.evalA)) := by
  constructor
  · intro op i hop code ip st vars a b hget
    exact BC.step_op hop code ip st vars a b hget
  · intro a hwf
    constructor
    · obtain ⟨frag, hfrag⟩ := exprFrag_toBC_isSome a hwf
      refine ⟨frag, hfrag, ?_⟩
      intro st vars suffix v hv
      have he := (BC.exec_expr a.toBC frag hfrag [] suffix st vars
        (frag ++ suffix) (by simp)).1 v (by rw [evalB_toBC]; exact hv)
      simpa using he
    · intro cg hRW hcur
      obtain ⟨cg', v, hc, _, _, _, _, _, hev⟩ :=
        LL.ll_aexp_correct a hwf cg hRW hcur
      exact ⟨cg', v, hc,
        fun fuel hf => hev cg'.blocks (fun r hr => rfl) fuel hf⟩

/-- Witness for C3: the division step on concrete operands, and the
native lowering of `2 + 3` from the `main` prologue state. -/
theorem c3_witness :
    BC.step ⟨0, [2, 10], [BC.Instr.div], []⟩ =
      .cont ⟨1, [5], [BC.Instr.div], []⟩ ∧
    (AExp.bin (.num 2) "+" (.num 3)).wf ∧
    (∃ cg' v, LL.compile_expr cgMain (AExp.bin (.num 2) "+"
        (.num 3)).toLL = .ok (cg', v) ∧
      ∀ fuel, (AExp.bin (.num 2) "+" (.num 3)).cost ≤ fuel →
        LL.evalVal cg'.blocks fuel v =
          (AExp.bin (.num 2) "+" (.num 3)).evalA) :=
  ⟨c3_binop_backend_agreement.1 "/" .div rfl [.div] 0 [] [] 10 2 rfl,
   by decide,
   (c3_binop_backend_agreement.2 (.bin (.num 2) "+" (.num 3))
      (by decide)).2 cgMain
      (by intro j hj m hm; simp [cgMain, LL.defsOf] at hj)
      (by decide)⟩

/-- Counterexample to C4 as stated: lowering `if (1) { }`, which has no
else branch, still creates a block named `else` (the lowering appends
then/else/after_if unconditionally), and that block contains no
terminator at all, so it does not end in exactly one terminator and the
conditional branch does not target the merge block directly. -/
theorem c4_counterexample :
    ∃ cg, LL.compile_program progIfLL = .ok cg ∧
      cg.blocks.length = 4 ∧
      cg.blocks.get? 2 = some ⟨"else", []⟩ ∧
      (cg.blocks.get? 2).map (fun b => b.instrs.filter LL.isTerm) =
        some [] ∧
      (cg.blocks.get? 0).map (fun b => b.instrs.getLast?) =
        some (some (.condbr (.reg 0) 1 3)) :=
  ⟨_, rfl, rfl, rfl, rfl, rfl⟩

/-- Witness for C4 (amended) at `if (1) { }` lowered from the `main`
prologue state. -/
theorem c4_witness :
    ∃ r,
    cgIfOut.blocks.length = cgMain.blocks.length + 3 ∧
    LL.blockName cgIfOut cgMain.blocks.length = "then" ∧
    LL.blockName cgIfOut (cgMain.blocks.length + 1) = "else" ∧
    LL.blockName cgIfOut (cgMain.blocks.length + 2) = "after_if" ∧
    cgIfOut.cur = cgMain.blocks.length + 2 ∧
    LL.blockInstrs cgIfOut (cgMain.blocks.length + 2) = [] ∧
    (LL.blockInstrs cgIfOut cgMain.blocks.length).filter LL.isTerm =
      [.br (cgMain.blocks.length + 2)] ∧
    (LL.blockInstrs cgIfOut cgMain.blocks.length).getLast? =
      some (.br (cgMain.blocks.length + 2)) ∧
    ((none : Option (List LL.Stmt)) = none →
      LL.blockInstrs cgIfOut (cgMain.blocks.length + 1) = [] ∧
      LL.LInstr.condbr (.reg r) cgMain.blocks.length
          (cgMain.blocks.length + 2) ∈
        LL.blockInstrs cgIfOut cgMain.cur) ∧
    (∀ es, (none : Option (List LL.Stmt)) = some es →
      (LL.blockInstrs cgIfOut (cgMain.blocks.length + 1)).filter
          LL.isTerm = [.br (cgMain.blocks.length + 2)] ∧
      (LL.blockInstrs cgIfOut (cgMain.blocks.length + 1)).getLast? =
        some (.br (cgMain.blocks.length + 2)) ∧
      LL.LInstr.condbr (.reg r) cgMain.blocks.length
          (cgMain.blocks.length + 1) ∈
        LL.blockInstrs cgIfOut cgMain.cur) :=
  LL.ll_if_lowering cgMain cgIfOut (.number 1) [] none fnMain 0 rfl
    (fun s hs => absurd hs (List.not_mem_nil s))
    (fun es h => Option.noConfusion h)
    (by decide) rfl rfl (by decide) (by decide)

set_option maxHeartbeats 1600000 in
/-- Counterexample to C5 as stated: lowering `while (1) { if (1) { } }`
creates six new blocks, not three, and the block named `while_body` does
not end with an unconditional branch back to the condition-check block
(index 1): it ends with the inner if's conditional branch; the branch
back to the condition check lands in the inner `after_if` block. -/
theorem c5_counterexample :
    ∃ cg, LL.compile_program progWhileNestedLL = .ok cg ∧
      cg.blocks.length = 7 ∧
      (cg.blocks.get? 2).map (fun b => b.name) = some "while_body" ∧
      (cg.blocks.get? 2).map (fun b => b.instrs.getLast?) =
        some (some (.condbr (.reg 1) 4 6)) ∧
      (cg.blocks.get? 6).map (fun b => b.name) = some "after_if" ∧
      (cg.blocks.get? 6).map (fun b => b.instrs.getLast?) =
        some (some (.br 1)) :=
  ⟨_, rfl, rfl, rfl, rfl, rfl, rfl⟩

/-- Witness for C5 (amended) at `while (1) { }` lowered from the `main`
prologue state. -/
theorem c5_witness :
    ∃ r cv ce,
    cgWhileOut.blocks.length = cgMain.blocks.length + 3 ∧
    LL.blockName cgWhileOut cgMain.blocks.length = "while_cond" ∧
    LL.blockName cgWhileOut (cgMain.blocks.length + 1) = "while_body" ∧
    LL.blockName cgWhileOut (cgMain.blocks.length + 2) = "while_after" ∧
    cgWhileOut.cur = cgMain.blocks.length + 2 ∧
    LL.blockInstrs cgWhileOut (cgMain.blocks.length + 2) = [] ∧
    (∀ i ∈ ce, LL.isTerm i = false) ∧
    LL.blockInstrs cgWhileOut cgMain.blocks.length =
      (([] ++ ce) ++ [.icmp r .pne cv (.constInt 0)]) ++
        [.condbr (.reg r) (cgMain.blocks.length + 1)
          (cgMain.blocks.length + 2)] ∧
    (LL.blockInstrs cgWhileOut cgMain.blocks.length).getLast? =
      some (.condbr (.reg r) (cgMain.blocks.length + 1)
        (cgMain.blocks.length + 2)) ∧
    (LL.blockInstrs cgWhileOut cgMain.blocks.length).filter LL.isTerm =
      [.condbr (.reg r) (cgMain.blocks.length + 1)
        (cgMain.blocks.length + 2)] ∧
    (LL.blockInstrs cgWhileOut (cgMain.blocks.length + 1)).filter
        LL.isTerm = [.br cgMain.blocks.length] ∧
    (LL.blockInstrs cgWhileOut (cgMain.blocks.length + 1)).getLast? =
      some (.br cgMain.blocks.length) ∧
    cgMain.blocks.length ≠ cgMain.blocks.length + 1 ∧
    LL.LInstr.br cgMain.blocks.length ∈
      LL.blockInstrs cgWhileOut cgMain.cur :=
  LL.ll_while_lowering cgMain cgWhileOut (.number 1) [] fnMain 0 rfl
    (fun s hs => absurd hs (List.not_mem_nil s))
    (by decide) rfl rfl (by decide) (by decide)

/-- Claim C6: a `Load` of a name absent from the VM's store pushes the
default 0 and continues without fault, while lowering an `Identifier`
found in no scope on the native path aborts compilation with
`UndefinedVariable` — the same construct is permissive at runtime in one
backend and fatal at compile time in the other. -/
theorem c6_undefined_read_asymmetry :
    (∀ (name : String) (vars : List (String × Int))
        (code : List BC.Instr) (ip : Nat) (st : List Int),
      code[ip]? = some (.load name) → BC.lookupVar vars name = none →
      BC.step ⟨ip, st, code, vars⟩ =
        .cont ⟨ip + 1, 0 :: st, code, vars⟩) ∧
    (∀ (name : String) (cg : LL.CG),
      LL.lookupVarsStack cg.varsStack name = none →
      LL.compile_expr cg (.identifier name) =
        .error (.undefinedVariable name)) := by
  constructor
  · intro name vars code ip st hget hlk
    simp [BC.step, hget, hlk]
  · intro name cg hlk
    simp only [LL.compile_expr]
    rw [hlk]
    rfl

/-- Witness for C6: loading unset `z` from an empty store, and lowering
`z` in the prologue state whose only scope is empty. -/
theorem c6_witness :
    BC.step ⟨0, [], [BC.Instr.load "z"], []⟩ =
      .cont ⟨1, [0], [BC.Instr.load "z"], []⟩ ∧
    LL.compile_expr cgMain (.identifier "z") =
      .error (.undefinedVariable "z") :=
  ⟨c6_undefined_read_asymmetry.1 "z" [] [.load "z"] 0 [] rfl rfl,
   c6_undefined_read_asymmetry.2 "z" cgMain rfl⟩

/-- Claim C7: a `Div` whose popped divisor is 0 faults with an
arithmetic error and aborts; compiling and running `let q = 10 / 0;`
on the bytecode backend faults with the store still empty (no value
bound to `q`), and on the native backend the emitted `sdiv` of 10 by 0
is a trapping value: it evaluates to no result at any fuel. -/
theorem c7_div_zero_faults :
    (∀ (code : List BC.Instr) (ip : Nat) (st : List Int) (a : Int)
        (vars : List (String × Int)),
      code[ip]? = some .div →
      BC.step ⟨ip, 0 :: a :: st, code, vars⟩ =
        .fault .arithFault vars) ∧
    (∃ code, BC.compile_program progDivBC = some code ∧
      BC.run 20 (BC.initVM code) = .fault .arithFault []) ∧
    (∃ cg, LL.compile_program progDivLL = .ok cg ∧
      LL.findDef cg.blocks 0 =
        some (.sdiv 0 (.constInt 10) (.constInt 0)) ∧
      ∀ fuel, LL.evalVal cg.blocks (fuel + 1) (.reg 0) = none) := by
  refine ⟨?_, ⟨_, rfl, rfl⟩,
    ⟨LL.CG.mk [⟨"entry", [.sdiv 0 (.constInt 10) (.constInt 0),
        .alloca 1 "q", .storeV (.reg 1) (.reg 0), .retV (.constInt 0)]⟩]
      [⟨"main", 0, [0]⟩] (some 0) 0 [] 2, rfl, rfl, ?_⟩⟩
  · intro code ip st a vars hget
    simp [BC.step, hget, applyDiv]
  · intro fuel
    show LL.evalVal [⟨"entry", [.sdiv 0 (.constInt 10) (.constInt 0),
        .alloca 1 "q", .storeV (.reg 1) (.reg 0), .retV (.constInt 0)]⟩]
      (fuel + 1) (.reg 0) = none
    rw [LL.evalVal_reg_sdiv [⟨"entry", [.sdiv 0 (.constInt 10)
        (.constInt 0), .alloca 1 "q", .storeV (.reg 1) (.reg 0),
        .retV (.constInt 0)]⟩] fuel 0 0 (.constInt 10) (.constInt 0)
      rfl]
    simp [LL.evalVal, applyDiv]

/-- Witness for C7: the division step on a concrete zero divisor. -/
theorem c7_witness :
    BC.step ⟨0, [0, 10], [BC.Instr.div], []⟩ = .fault .arithFault [] :=
  c7_div_zero_faults.1 [.div] 0 [] 10 [] rfl

/-- Claim C8: a program the bytecode emitter compiles leaves the operand
stack exactly empty when the VM reaches `Halt`: the emitter compiles no
expression statements, so no residues remain. -/
theorem c8_stack_empty_at_halt {p : BC.Program} {code : List BC.Instr}
    (h : BC.compile_program p = some code) (fuel : Nat) (s : BC.VMState)
    (hrun : BC.run fuel (BC.initVM code) = .halted s) : s.stack = [] :=
  BC.run_halted_stack_empty h fuel s hrun

/-- Witness for C8 at `let a = 1;`. -/
theorem c8_witness :
    BC.compile_program ⟨[.varDecl "a" "int" (.number 1)]⟩ =
      some [.pushInt 1, .store "a", .halt] ∧
    BC.run 5 (BC.initVM [.pushInt 1, .store "a", .halt]) =
      .halted ⟨2, [], [.pushInt 1, .store "a", .halt], [("a", 1)]⟩ ∧
    (⟨2, [], [.pushInt 1, .store "a", .halt],
      [("a", 1)]⟩ : BC.VMState).stack = [] :=
  ⟨rfl, rfl,
   @c8_stack_empty_at_halt ⟨[.varDecl "a" "int" (.number 1)]⟩
     [.pushInt 1, .store "a", .halt] rfl 5
     ⟨2, [], [.pushInt 1, .store "a", .halt], [("a", 1)]⟩ rfl⟩

/-- Claim C9: `Pop` on an empty operand stack does not fault — the stack
stays empty and the instruction pointer advances by one — whereas
`Store` and every binary or comparison operator fault with a stack
underflow when their operands are missing. -/
theorem c9_pop_empty_no_fault :
    ∀ (code : List BC.Instr) (ip : Nat) (vars : List (String × Int)),
      (code[ip]? = some .pop →
        BC.step ⟨ip, [], code, vars⟩ = .cont ⟨ip + 1, [], code, vars⟩) ∧
      (∀ name, code[ip]? = some (.store name) →
        BC.step ⟨ip, [], code, vars⟩ = .fault .stackUnderflow vars) ∧
      (∀ (op : String) (i : BC.Instr), BC.opInstr op = some i →
        code[ip]? = some i → ∀ st : List Int, st.length ≤ 1 →
        BC.step ⟨ip, st, code, vars⟩ = .fault .stackUnderflow vars) := by
  intro code ip vars
  refine ⟨?_, ?_, ?_⟩
  · intro hget
    simp [BC.step, hget]
  · intro name hget
    simp [BC.step, hget]
  · intro op i hop hget st hlen
    unfold BC.opInstr at hop
    have hst : st = [] ∨ ∃ v, st = [v] := by
      cases st with
      | nil => exact Or.inl rfl
      | cons v t =>
          cases t with
          | nil => exact Or.inr ⟨v, rfl⟩
          | cons b t2 => simp at hlen
    split at hop
    all_goals first
      | exact Option.noConfusion hop
      | (cases hop
         rcases hst with rfl | ⟨v, rfl⟩ <;> simp [BC.step, hget])

/-- Witness for C9: `Pop` at an empty stack continues; `Store` and `Add`
at insufficient operands fault. -/
theorem c9_witness :
    (BC.step ⟨0, [], [BC.Instr.pop], []⟩ =
      .cont ⟨1, [], [BC.Instr.pop], []⟩) ∧
    (BC.step ⟨0, [], [BC.Instr.store "x"], []⟩ =
      .fault .stackUnderflow []) ∧
    (BC.step ⟨0, [7], [BC.Instr.add], []⟩ =
      .fault .stackUnderflow []) :=
  ⟨(c9_pop_empty_no_fault [.pop] 0 []).1 rfl,
   (c9_pop_empty_no_fault [.store "x"] 0 []).2.1 "x" rfl,
   (c9_pop_empty_no_fault [.add] 0 []).2.2 "+" .add rfl rfl [7]
     (by decide)⟩

/-- Claim C10: executing a `Load` never modifies the variable store —
the resulting state carries the same `vars`, so an unset name stays
unset for every later observation until a `Store` to it executes; when
the name is unset the pushed value is the default 0. -/
theorem c10_load_preserves_store :
    ∀ (code : List BC.Instr) (ip : Nat) (st : List Int)
      (vars : List (String × Int)) (name : String),
      code[ip]? = some (.load name) →
      BC.step ⟨ip, st, code, vars⟩ =
        .cont ⟨ip + 1, (BC.lookupVar vars name).getD 0 :: st, code,
          vars⟩ ∧
      (BC.lookupVar vars name = none →
        BC.step ⟨ip, st, code, vars⟩ =
          .cont ⟨ip + 1, 0 :: st, code, vars⟩) := by
  intro code ip st vars name hget
  constructor
  · simp [BC.step, hget]
  · intro hlk
    simp [BC.step, hget, hlk]

/-- Witness for C10: loading unset `w` leaves the store `[("v", 3)]`
untouched and pushes 0. -/
theorem c10_witness :
    BC.step ⟨0, [], [BC.Instr.load "w"], [("v", 3)]⟩ =
      .cont ⟨1, [0], [BC.Instr.load "w"], [("v", 3)]⟩ :=
  (c10_load_preserves_store [.load "w"] 0 [] [("v", 3)] "w" rfl).2 rfl
